import Mathlib

/-!
Verification development for the clawmem memory service.

The Go source is shallowly embedded: the SQLite metadata store is a list of
memory rows, timestamps are naturals, similarity scores are rationals, and the
chromem vector index is a list of (id, metadata) entries whose similarity to
the current query is an abstract function of the id.  SQL ORDER BY clauses are
modelled with a stable sort on the corresponding comparator (a faithful
determinization of SQLite's unspecified tie order).  The asynchronous write
queue is drained by a single writer, so queued writes are modelled as applied
immediately.
-/

namespace ClawMem

/-- Timestamps (UTC instants) are modelled as naturals. -/
abbrev Time := Nat

/-- Embedding vectors are opaque payloads; the code only moves them around. -/
abbrev Vec := List Int

/-- Status constants from internal/model (status column values). -/
def StatusActive : String := "active"

def StatusConsolidated : String := "consolidated"

def StatusDream : String := "dream"

/-- Kind constants.  The current model source file is not in the tree; the
values are pinned by the schema default (kind TEXT DEFAULT 'conversation'),
the scan-time backfill to "conversation", the transport layer which feeds the
literal strings "preference"/"fact"/"conversation" into the kind field, and
the spec's enumeration {conversation, fact, preference, summary}. -/
def KindConversation : String := "conversation"

def KindFact : String := "fact"

def KindPreference : String := "preference"

def KindSummary : String := "summary"

/-- A row of the memories table (internal/model.Memory plus the lifecycle
columns of the schema). -/
structure Memory where
  id : String
  userId : String
  sessionId : String := ""
  content : String
  summary : String := ""
  source : String := ""
  tags : List String := []
  status : String := ""
  embedProvider : String := ""
  kind : String := ""
  accessCount : Nat := 0
  lastAccessedAt : Time := 0
  createdAt : Time := 0
  updatedAt : Time := 0
  deletedAt : Option Time := none
deriving Repr, DecidableEq

/-- The memories table, in row order. -/
abbrev Store := List Memory

/-- Stable sort by a Bool comparator (the model of SQL ORDER BY; insertion
sort is structurally recursive, so concrete stores evaluate in the kernel). -/
def sortBy {α : Type} (le : α → α → Bool) (l : List α) : List α :=
  l.insertionSort (fun a b => le a b = true)

/-! ### SQL comparators (ORDER BY clauses), as Bool relations for sortBy -/

/-- ORDER BY updated_at DESC. -/
def updatedDescLe (a b : Memory) : Bool := Nat.ble b.updatedAt a.updatedAt

/-- ORDER BY created_at DESC. -/
def createdDescLe (a b : Memory) : Bool := Nat.ble b.createdAt a.createdAt

/-- ORDER BY created_at ASC. -/
def createdAscLe (a b : Memory) : Bool := Nat.ble a.createdAt b.createdAt

/-- ORDER BY access_count ASC, created_at ASC (EnforceMemoryBudget). -/
def budgetLe (a b : Memory) : Bool :=
  Nat.blt a.accessCount b.accessCount ||
    (a.accessCount == b.accessCount && Nat.ble a.createdAt b.createdAt)

/-! ### SQLiteStore operations (storage package) -/

/-- Insert: the stored row gets status default "active", kind default
"conversation", and last_accessed_at defaulted to now when unset. -/
def Insert (st : Store) (m : Memory) (now : Time) : Store :=
  let status := if m.status == "" then StatusActive else m.status
  let kind := if m.kind == "" then KindConversation else m.kind
  let la := if m.lastAccessedAt == 0 then now else m.lastAccessedAt
  st ++ [{ m with status := status, kind := kind, lastAccessedAt := la }]

/-- GetByID: lookup by id, excluding soft-deleted rows. -/
def GetByID (st : Store) (id : String) : Option Memory :=
  st.find? (fun m => m.id == id && m.deletedAt.isNone)

/-- GetByIDWithDeleted: lookup by id including soft-deleted rows. -/
def GetByIDWithDeleted (st : Store) (id : String) : Option Memory :=
  st.find? (fun m => m.id == id)

/-- GetByIDs: batch lookup (WHERE id IN …, excluding soft-deleted). -/
def GetByIDs (st : Store) (ids : List String) : List Memory :=
  st.filter (fun m => ids.contains m.id && m.deletedAt.isNone)

/-- Count: SELECT COUNT(*) FROM memories — note: no deleted_at filter in the
source SQL, so soft-deleted rows are counted. -/
def Count (st : Store) : Nat := st.length

/-- The number of visible (deleted_at IS NULL) rows; used by GetStats'
total_active and by EnforceMemoryBudget's internal count. -/
def visibleCount (st : Store) : Nat := st.countP (fun m => m.deletedAt.isNone)

/-- UpdateAccessCount: access_count + 1, last_accessed_at = now. -/
def UpdateAccessCount (st : Store) (id : String) (now : Time) : Store :=
  st.map (fun m =>
    if m.id == id then
      { m with accessCount := m.accessCount + 1, lastAccessedAt := now }
    else m)

/-- Row predicate of the SearchPreferences SQL query. -/
def prefRow (userId : String) (m : Memory) : Bool :=
  m.userId == userId && m.kind == KindPreference &&
    m.status == StatusActive && m.deletedAt.isNone

/-- SearchPreferences: the tenant's preference rows, newest-updated first,
up to limit; each returned row's access counter is bumped (asynchronously, so
the returned rows carry the pre-bump values). -/
def SearchPreferences (st : Store) (userId : String) (limit : Nat) (now : Time) :
    List Memory × Store :=
  let rows := (sortBy updatedDescLe (st.filter (prefRow userId))).take limit
  (rows, rows.foldl (fun s m => UpdateAccessCount s m.id now) st)

/-- ASCII case folding used by SQLite's default LIKE. -/
def foldChars (s : String) : List Char := s.toList.map Char.toLower

/-- sub occurs at the start of hay. -/
def charsStartWith : List Char → List Char → Bool
  | _, [] => true
  | [], _ :: _ => false
  | c :: cs, d :: ds => c == d && charsStartWith cs ds

/-- sub occurs somewhere in hay. -/
def charsContain (hay sub : List Char) : Bool :=
  match hay with
  | [] => sub.isEmpty
  | _ :: rest => charsStartWith hay sub || charsContain rest sub

/-- hay LIKE '%sub%' (ASCII case-insensitive, per SQLite's default). -/
def likeContains (hay sub : String) : Bool :=
  charsContain (foldChars hay) (foldChars sub)

/-- Row predicate of the SearchSummariesByKeyword SQL query: the keyword
disjunction is added only when the keyword list is non-empty. -/
def summaryRow (userId : String) (keywords : List String) (m : Memory) : Bool :=
  m.userId == userId && m.kind == KindSummary &&
    m.status == StatusActive && m.deletedAt.isNone &&
    (keywords.isEmpty ||
      keywords.any (fun kw => likeContains m.content kw || likeContains m.summary kw))

/-- SearchSummariesByKeyword: summary rows matching any keyword (no keyword
restriction at all when the list is empty), newest-updated first, up to limit;
each returned row's access counter is bumped. -/
def SearchSummariesByKeyword (st : Store) (userId : String) (keywords : List String)
    (limit : Nat) (now : Time) : List Memory × Store :=
  let rows := (sortBy updatedDescLe (st.filter (summaryRow userId keywords))).take limit
  (rows, rows.foldl (fun s m => UpdateAccessCount s m.id now) st)

/-- Row predicate of the GetRecentConversations SQL query. -/
def convRow (userId : String) (m : Memory) : Bool :=
  m.userId == userId && m.kind == KindConversation &&
    m.status == StatusActive && m.deletedAt.isNone

/-- GetRecentConversations: newest-first conversation rows for the tenant;
access counters are deliberately not bumped (fallback filler). -/
def GetRecentConversations (st : Store) (userId : String) (limit : Nat) : List Memory :=
  (sortBy createdDescLe (st.filter (convRow userId))).take limit

/-- Row predicate of the GetLocalMemories SQL query: visible active rows whose
embed_provider equals the literal string "local". -/
def localRow (m : Memory) : Bool :=
  m.status == StatusActive && m.embedProvider == "local" && m.deletedAt.isNone

/-- GetLocalMemories: oldest-first visible active rows with
embed_provider = "local". -/
def GetLocalMemories (st : Store) (limit : Nat) : List Memory :=
  (sortBy createdAscLe (st.filter localRow)).take limit

/-- UpdateMemoryProvider: rewrite embed_provider (Healer promotion). -/
def UpdateMemoryProvider (st : Store) (id newProvider : String) (now : Time) : Store :=
  st.map (fun m =>
    if m.id == id then { m with embedProvider := newProvider, updatedAt := now } else m)

/-- SoftDeleteByID: UPDATE memories SET deleted_at = CURRENT_TIMESTAMP,
updated_at = CURRENT_TIMESTAMP WHERE id = ? — unconditional, with no
deleted_at IS NULL guard in the source SQL. -/
def SoftDeleteByID (st : Store) (id : String) (now : Time) : Store :=
  st.map (fun m =>
    if m.id == id then { m with deletedAt := some now, updatedAt := now } else m)

/-- SoftDeleteByIDs: batch variant of SoftDeleteByID. -/
def SoftDeleteByIDs (st : Store) (ids : List String) (now : Time) : Store :=
  st.map (fun m =>
    if ids.contains m.id then { m with deletedAt := some now, updatedAt := now } else m)

/-- UpdateMemRecord: full overwrite of a row's mutable columns, optionally
clearing deleted_at (the resurrect path). -/
def UpdateMemRecord (st : Store) (m : Memory) (restore : Bool) (now : Time) : Store :=
  let status := if m.status == "" then StatusActive else m.status
  let kind := if m.kind == "" then KindConversation else m.kind
  st.map (fun r =>
    if r.id == m.id then
      { r with
        content := m.content, summary := m.summary, source := m.source,
        tags := m.tags, status := status, embedProvider := m.embedProvider,
        kind := kind, updatedAt := now,
        deletedAt := if restore then none else r.deletedAt }
    else r)

/-- Candidate predicate of the EnforceMemoryBudget eviction query: visible and
not of a protected kind. -/
def budgetCandidate (m : Memory) : Bool :=
  m.deletedAt.isNone && m.kind != KindFact && m.kind != KindPreference

/-- EnforceMemoryBudget: while the visible count exceeds the budget,
soft-delete the excess from the unprotected rows ordered by
(access_count ASC, created_at ASC). -/
def EnforceMemoryBudget (st : Store) (budget : Int) (now : Time) : Nat × Store :=
  if budget ≤ 0 then (0, st)
  else
    let count := visibleCount st
    if count ≤ budget.toNat then (0, st)
    else
      let toDelete := count - budget.toNat
      let ids := ((sortBy budgetLe (st.filter budgetCandidate)).take toDelete).map Memory.id
      (ids.length, SoftDeleteByIDs st ids now)

/-! ### Vector store (chromem collection)

An entry is a document keyed by id with a metadata map; the similarity of an
entry to the current query text is abstracted as a function of the id. -/

structure VecEntry where
  id : String
  doc : String := ""
  meta : List (String × String) := []
  vec : Vec := []
deriving Repr, DecidableEq

abbrev VStore := List VecEntry

/-- chromem AddDocument is an upsert on id. -/
def vsAdd (vs : VStore) (id doc : String) (meta : List (String × String)) (vec : Vec) :
    VStore :=
  let e : VecEntry := { id := id, doc := doc, meta := meta, vec := vec }
  if vs.any (fun x => x.id == id) then vs.map (fun x => if x.id == id then e else x)
  else vs ++ [e]

/-- chromem Delete by ids (best-effort; missing ids are not errors). -/
def vsDelete (vs : VStore) (ids : List String) : VStore :=
  vs.filter (fun e => !(ids.contains e.id))

/-- The where-filter: exact equality on every listed metadata key. -/
def metaMatches (filt : List (String × String)) (e : VecEntry) : Bool :=
  filt.all (fun kv => decide (e.meta.lookup kv.1 = some kv.2))

/-- Comparator ranking entries by descending similarity. -/
def simDescLe (sim : String → Rat) (a b : VecEntry) : Bool :=
  decide (sim b.id ≤ sim a.id)

/-- chromem Query: up to topK filtered entries, most similar first, each with
its similarity score. -/
def vsQuery (vs : VStore) (sim : String → Rat) (topK : Nat)
    (filt : List (String × String)) : List (String × Rat) :=
  ((sortBy (simDescLe sim) (vs.filter (metaMatches filt))).take topK).map
    (fun e => (e.id, sim e.id))

/-! ### Memory service (internal/core/service.go) -/

/-- The fixed preference-tier score 1.0 (kernel-reducible rational). -/
def scorePref : Rat := 1

/-- The fixed summary-tier score 0.95. -/
def scoreSummary : Rat := mkRat 95 100

/-- The fixed conversation-fallback score 0.7. -/
def scoreFallback : Rat := mkRat 7 10

/-- The default semantic-delete threshold 0.85. -/
def defaultThreshold : Rat := mkRat 85 100

/-- Dream's conflict-resolution match threshold 0.75. -/
def dreamThreshold : Rat := mkRat 75 100

/-- A (memory, score) pair of the recall path. -/
structure SearchResult where
  memory : Memory
  score : Rat
deriving Repr, DecidableEq

/-- The accumulator of SearchMemory: results so far plus the seen-id set. -/
structure SearchAcc where
  results : List SearchResult := []
  seen : List String := []
deriving Repr, DecidableEq

/-- Append a result unless its id was already seen (tiers 1 and 2 check the
seen set before appending). -/
def addSeen (acc : SearchAcc) (m : Memory) (score : Rat) : SearchAcc :=
  if acc.seen.contains m.id then acc
  else { results := acc.results ++ [{ memory := m, score := score }],
         seen := acc.seen ++ [m.id] }

/-- Character-level tokenizer: split on whitespace runs, no empty tokens
(acc holds the current token reversed). -/
def fieldsAux : List Char → List Char → List String
  | [], acc => if acc.isEmpty then [] else [String.mk acc.reverse]
  | c :: cs, acc =>
    if c.isWhitespace then
      if acc.isEmpty then fieldsAux cs []
      else String.mk acc.reverse :: fieldsAux cs []
    else fieldsAux cs (c :: acc)

/-- strings.Fields: split on whitespace runs, dropping empty tokens. -/
def fields (s : String) : List String := fieldsAux s.toList []

/-- The tier-3 step: hydrated rows whose kind is not preference/summary are
appended (no seen check inside this loop in the source) and their access
counters bumped. -/
def vectorStep (now : Time) (scores : List (String × Rat)) (p : SearchAcc × Store)
    (m : Memory) : SearchAcc × Store :=
  if m.kind != KindPreference && m.kind != KindSummary then
    ({ results := p.1.results ++ [{ memory := m, score := (scores.lookup m.id).getD 0 }],
       seen := p.1.seen ++ [m.id] },
     UpdateAccessCount p.2 m.id now)
  else p

/-- Tiers 1 and 2 of SearchMemory: up to 6 preferences at score 1.0, then up
to 3 keyword-matching summaries at 0.95, else up to 5 recent conversations
at 0.7 (without access bumps). -/
def tier12 (st : Store) (userId query : String) (now : Time) : SearchAcc × Store :=
  let pr := SearchPreferences st userId 6 now
  let acc1 := pr.1.foldl (fun a m => addSeen a m scorePref) {}
  let keywords := if query == "" then [] else fields query
  let sr := SearchSummariesByKeyword pr.2 userId keywords 3 now
  let acc2 :=
    if sr.1.isEmpty then
      (GetRecentConversations sr.2 userId 5).foldl (fun a m => addSeen a m scoreFallback) acc1
    else
      sr.1.foldl (fun a m => addSeen a m scoreSummary) acc1
  (acc2, sr.2)

/-- Tier 3 of SearchMemory: vector recall filtered on user_id (and session_id
when given), restricted to unseen ids, hydrated from the metadata store. -/
def tier3 (vs : VStore) (sim : String → Rat) (topK : Int) (userId sessionId : String)
    (now : Time) (p : SearchAcc × Store) : SearchAcc × Store :=
  let k := if topK ≤ 0 then (5 : Int) else topK
  let filt := [("user_id", userId)] ++
    (if sessionId == "" then [] else [("session_id", sessionId)])
  let vres := vsQuery vs sim k.toNat filt
  let vIDs := (vres.filter (fun r => !(p.1.seen.contains r.1))).map Prod.fst
  let vMems := GetByIDs p.2 vIDs
  vMems.foldl (vectorStep now vres) p

/-- SearchMemory: tiered recall, the composition of tiers 1-2 and tier 3. -/
def SearchMemory (st : Store) (vs : VStore) (sim : String → Rat)
    (userId query : String) (topK : Int) (sessionId : String) (now : Time) :
    List SearchResult × Store :=
  let fin := tier3 vs sim topK userId sessionId now (tier12 st userId query now)
  (fin.1.results, fin.2)

/-- Outcome of DeleteMemoriesByQuery. -/
structure DelOut where
  count : Nat
  ids : List String
  store : Store
  vstore : VStore
deriving Repr, DecidableEq

/-- DeleteMemoriesByQuery: search with top_k = 50, soft-delete every hit with
score ≥ threshold (default 0.85 when the given threshold is ≤ 0). -/
def DeleteMemoriesByQuery (st : Store) (vs : VStore) (sim : String → Rat)
    (userId query : String) (threshold : Rat) (now : Time) : DelOut :=
  let th := if threshold ≤ 0 then defaultThreshold else threshold
  let s := SearchMemory st vs sim userId query 50 "" now
  let ids := s.1.filterMap (fun r => if th ≤ r.score then some r.memory.id else none)
  if ids.isEmpty then ⟨0, [], s.2, vs⟩
  else ⟨ids.length, ids, SoftDeleteByIDs s.2 ids now, vsDelete vs ids⟩

/-- Service configuration (the fields the embedded paths read). -/
structure Config where
  disableLLMSummary : Bool := true
  memoryMaxCount : Int := 0
deriving Repr, DecidableEq

/-- AddMemoryRequest (current model: the kind field exists; the transport
layer defaults it before calling the service, and AddMemory defaults it again). -/
structure AddMemoryRequest where
  userId : String
  sessionId : String := ""
  content : String
  source : String := ""
  tags : List String := []
  kind : String := ""
deriving Repr, DecidableEq

/-- SetMemoryRequest (current model: carries kind, as dream.go populates it). -/
structure SetMemoryRequest where
  userId : String
  id : String := ""
  content : String
  source : String := ""
  tags : List String := []
  kind : String := ""
  matchQuery : String := ""
  matchThreshold : Rat := 0
deriving Repr, DecidableEq

/-- Outcome of AddMemory / SetMemory. -/
structure AddOut where
  mem : Memory
  store : Store
  vstore : VStore
deriving Repr, DecidableEq

/-- AddMemory: optional LLM summary (content longer than 200 bytes and
summarization enabled), embed the summary if non-empty else the content,
insert the row, then upsert the vector with metadata
{user_id, session_id, source, kind}.  The embedding call is abstracted as a
function returning (vector, provider) or failing. -/
def AddMemory (st : Store) (vs : VStore)
    (embed : String → Except String (Vec × String)) (summarize : String → String)
    (cfg : Config) (req : AddMemoryRequest) (newId : String) (now : Time) :
    Except String AddOut :=
  let summary :=
    if !cfg.disableLLMSummary && req.content.utf8ByteSize > 200 then
      summarize req.content
    else ""
  let embeddingContent := if summary != "" then summary else req.content
  match embed embeddingContent with
  | .error e => .error e
  | .ok (vec, provider) =>
    let mem0 : Memory :=
      { id := newId, userId := req.userId, sessionId := req.sessionId,
        content := req.content, summary := summary, source := req.source,
        tags := req.tags, status := StatusActive, embedProvider := provider,
        kind := req.kind, createdAt := now, updatedAt := now }
    let mem := if mem0.kind == "" then { mem0 with kind := KindConversation } else mem0
    let st1 := Insert st mem now
    let vs1 := vsAdd vs newId embeddingContent
      [("user_id", mem.userId), ("session_id", mem.sessionId),
       ("source", mem.source), ("kind", mem.kind)] vec
    .ok ⟨mem, st1, vs1⟩

/-- SetMemory's resurrect-and-replace branch body. -/
def setResurrect (st1 : Store) (vs1 : VStore)
    (embed : String → Except String (Vec × String)) (summarize : String → String)
    (cfg : Config) (req : SetMemoryRequest) (existing : Memory) (now : Time) :
    Except String AddOut :=
  let summary :=
    if !cfg.disableLLMSummary && req.content.utf8ByteSize > 200 then
      summarize req.content
    else ""
  let embeddingContent := if summary != "" then summary else req.content
  match embed embeddingContent with
  | .error e => .error e
  | .ok (vec, provider) =>
    let upd : Memory :=
      { existing with
        content := req.content, summary := summary,
        source := if req.source != "" then req.source else existing.source,
        tags := if req.tags.isEmpty then existing.tags else req.tags,
        embedProvider := provider }
    let st2 := UpdateMemRecord st1 upd true now
    let vs2 := vsAdd vs1 upd.id embeddingContent
      [("user_id", upd.userId), ("session_id", upd.sessionId),
       ("source", upd.source), ("kind", upd.kind)] vec
    .ok ⟨upd, st2, vs2⟩

/-- SetMemory: semantic pre-deduplication via DeleteMemoriesByQuery (failures
are warnings), then either resurrect-and-replace when the given id exists and
belongs to the caller, or fall through to a fresh AddMemory built from
user_id, content, source and tags only — the request's kind is not copied
into the AddMemoryRequest in the source. -/
def SetMemory (st : Store) (vs : VStore) (sim : String → Rat)
    (embed : String → Except String (Vec × String)) (summarize : String → String)
    (cfg : Config) (req : SetMemoryRequest) (newId : String) (now : Time) :
    Except String AddOut :=
  let matchQuery := if req.matchQuery == "" then req.content else req.matchQuery
  let d := DeleteMemoriesByQuery st vs sim req.userId matchQuery req.matchThreshold now
  let st1 := d.store
  let vs1 := d.vstore
  let addReq : AddMemoryRequest :=
    { userId := req.userId, content := req.content,
      source := req.source, tags := req.tags }
  match (if req.id != "" then GetByIDWithDeleted st1 req.id else none) with
  | some existing =>
    if existing.userId == req.userId then
      setResurrect st1 vs1 embed summarize cfg req existing now
    else
      AddMemory st1 vs1 embed summarize cfg addReq newId now
  | none =>
    AddMemory st1 vs1 embed summarize cfg addReq newId now

/-- DeleteMemoryByID: soft-delete in metadata, hard-delete the vector. -/
def DeleteMemoryByID (st : Store) (vs : VStore) (id : String) (now : Time) :
    Store × VStore :=
  (SoftDeleteByID st id now, vsDelete vs [id])

/-- GetMemoryCount delegates to the store's Count. -/
def GetMemoryCount (st : Store) : Nat := Count st

/-- dream.go saveGenMem, supersedes branch: tags are extended with
"dream", "consolidated", the date tag and then "conflict_resolved", and the
entry is routed through SetMemory with match_threshold 0.75 and the given
kind. -/
def dreamSetRequest (userId content kind supersedes dateTag : String)
    (tags : List String) : SetMemoryRequest :=
  { userId := userId, content := content,
    matchQuery := supersedes, matchThreshold := dreamThreshold,
    kind := kind, source := "dream",
    tags := tags ++ ["dream", "consolidated", dateTag, "conflict_resolved"] }

/-! ### Embedding manager (embedding package)

The three providers are closed variants.  Network behaviour is abstracted:
each provider's EmbedBatch either yields vectors or fails.  The md5 content
hash is abstracted as a string function. -/

inductive Provider
  | openai
  | cloudflare
  | localP
deriving Repr, DecidableEq

/-- Each provider's Name() string, verbatim from the source. -/
def providerName : Provider → String
  | .openai => "OpenAI/SiliconFlow (Tier 2)"
  | .cloudflare => "Cloudflare Workers AI (Tier 1)"
  | .localP => "Mock Local Embedder (Fallback)"

/-- The manager's environment: which cloud providers hold credentials, which
names the health check marked DOWN, and what each provider's EmbedBatch does. -/
structure ManagerEnv where
  openaiConfigured : Bool := false
  cloudflareConfigured : Bool := false
  downNames : List String := []
  embedBatch : Provider → List String → Option (List Vec)

/-- isConfigured: credentials present; the local provider always is. -/
def isConfigured (env : ManagerEnv) : Provider → Bool
  | .openai => env.openaiConfigured
  | .cloudflare => env.cloudflareConfigured
  | .localP => true

/-- isDown: keyed by provider name, as in the source's health map. -/
def isDown (env : ManagerEnv) (pname : String) : Bool := env.downNames.contains pname

/-- The provider chain of each strategy (the switch in GetEmbeddingBatch):
accuracy_first = [openai, cloudflare, local]; local_only = [local];
cloud_first falls through to the default = [cloudflare, local]. -/
def chainForStrategy : String → List Provider
  | "accuracy_first" => [.openai, .cloudflare, .localP]
  | "local_only" => [.localP]
  | _ => [.cloudflare, .localP]

/-- tryChainBatch: walk the chain, skipping unconfigured or DOWN providers;
the first success yields (vectors, that provider's Name()).  When every
attempted provider fails (or none is attempted) the chain yields nothing:
in the source this surfaces as an error, directly or through the caller's
count-mismatch check on the nil result. -/
def tryChainBatch (env : ManagerEnv) (texts : List String) :
    List Provider → Option (List Vec × String)
  | [] => none
  | e :: rest =>
    if isConfigured env e && !isDown env (providerName e) then
      match env.embedBatch e texts with
      | some vecs => some (vecs, providerName e)
      | none => tryChainBatch env texts rest
    else tryChainBatch env texts rest

/-- The embedding cache: hash → (vector, provider), hash primary key. -/
abbrev Cache := List (String × (Vec × String))

/-- GetCachedEmbedding: a missing row (or a nil vector) is a miss. -/
def GetCachedEmbedding (c : Cache) (h : String) : Option (Vec × String) := c.lookup h

/-- SetCachedEmbedding: upsert on hash (last write wins). -/
def SetCachedEmbedding (c : Cache) (h : String) (v : Vec) (p : String) : Cache :=
  if (c.lookup h).isSome then c.map (fun e => if e.1 == h then (h, (v, p)) else e)
  else c ++ [(h, (v, p))]

/-- Fill the output in input order: cached positions keep their cache entry,
missing positions consume the computed vectors in order, stamped with the
uniform recomputing provider. -/
def fillResults : List (String × Option (Vec × String)) → List Vec → String →
    Option (List (Vec × String))
  | [], [], _ => some []
  | [], _ :: _, _ => none
  | (_, some c) :: rest, vsx, p => (fillResults rest vsx p).map (fun r => c :: r)
  | (_, none) :: rest, v :: vsx, p => (fillResults rest vsx p).map (fun r => (v, p) :: r)
  | (_, none) :: _, [], _ => none

/-- Write the recomputed vectors back to the cache, keyed by content hash and
stamped with the recomputing provider. -/
def writeCache (c : Cache) (pairs : List (String × Vec)) (p : String) : Cache :=
  pairs.foldl (fun acc hv => SetCachedEmbedding acc hv.1 hv.2 p) c

/-- Outcome of GetEmbeddingBatch: the per-text (vector, provider) pairs (or a
surfaced failure), the updated cache, and the texts that were sent to the
provider chain. -/
structure EmbedBatchOut where
  result : Except String (List (Vec × String))
  cache : Cache
  sent : List String
deriving Repr

/-- The per-text cache lookup pass of GetEmbeddingBatch. -/
def cacheLookups (hash : String → String) (cache : Cache) (texts : List String) :
    List (String × Option (Vec × String)) :=
  texts.map (fun t => (t, GetCachedEmbedding cache (hash t)))

/-- The texts whose cache lookup missed, in input order. -/
def missingOf (lookups : List (String × Option (Vec × String))) : List String :=
  lookups.filterMap (fun tc => if tc.2.isNone then some tc.1 else none)

/-- GetEmbeddingBatch: look every text up in the cache; if none is missing,
return the cached entries with zero provider calls; otherwise send exactly
the missing texts to the strategy's chain, check the returned count, merge
the computed vectors back into input order and cache each one under its
content hash with the recomputing provider. -/
def GetEmbeddingBatch (env : ManagerEnv) (strategy : String) (hash : String → String)
    (cache : Cache) (texts : List String) : EmbedBatchOut :=
  let lookups := cacheLookups hash cache texts
  let missingTexts := missingOf lookups
  if missingTexts.isEmpty then
    ⟨.ok (lookups.filterMap (fun tc => tc.2)), cache, []⟩
  else
    match tryChainBatch env missingTexts (chainForStrategy strategy) with
    | none => ⟨.error "all embedding strategies failed for missing items", cache, missingTexts⟩
    | some (vecs, provider) =>
      if vecs.length != missingTexts.length then
        ⟨.error "embedding count mismatch", cache, missingTexts⟩
      else
        match fillResults lookups vecs provider with
        | some out =>
          let missingHashes :=
            lookups.filterMap (fun tc => if tc.2.isNone then some (hash tc.1) else none)
          ⟨.ok out, writeCache cache (missingHashes.zip vecs) provider, missingTexts⟩
        | none => ⟨.error "embedding count mismatch", cache, missingTexts⟩

/-- GetEmbedding: the single-text wrapper over GetEmbeddingBatch. -/
def GetEmbedding (env : ManagerEnv) (strategy : String) (hash : String → String)
    (cache : Cache) (text : String) : Except String (Vec × String) × Cache :=
  let out := GetEmbeddingBatch env strategy hash cache [text]
  match out.result with
  | .error e => (.error e, out.cache)
  | .ok rs =>
    match rs with
    | r :: _ => (.ok r, out.cache)
    | [] => (.error "empty result", out.cache)

/-! ### Demonstration fixtures -/

/-- A single visible conversation row. -/
def demoRow : Memory :=
  { id := "m1", userId := "u1", content := "hello", status := StatusActive,
    kind := KindConversation, createdAt := 1, updatedAt := 1, lastAccessedAt := 1 }

/-- An environment where the primary cloud is configured but unreachable, the
alternate cloud is unconfigured, and the local fallback serves mock vectors. -/
def cloudOutageEnv : ManagerEnv :=
  { cloudflareConfigured := true,
    embedBatch := fun p texts =>
      match p with
      | .cloudflare => none
      | .openai => none
      | .localP => some (texts.map (fun _ => ([7] : Vec))) }

/-- The service-level embedding call under cloudOutageEnv with an empty cache. -/
def cloudOutageEmbed (t : String) : Except String (Vec × String) :=
  (GetEmbedding cloudOutageEnv "cloud_first" (fun s => s) [] t).1

/-- An environment where both clouds are configured, the primary cloud fails
and the alternate cloud would succeed. -/
def bothCloudsEnv : ManagerEnv :=
  { openaiConfigured := true, cloudflareConfigured := true,
    embedBatch := fun p texts =>
      match p with
      | .openai => some (texts.map (fun _ => ([1] : Vec)))
      | .cloudflare => none
      | .localP => some (texts.map (fun _ => ([0] : Vec))) }

/-! ### C1 -/

/-- C1: when every cloud provider fails and the local fallback serves the
vector, the stored embed_provider is the chain's returned name
"Mock Local Embedder (Fallback)", not "local"; GetLocalMemories, which matches
the literal "local", therefore does not return the record, so the Healer never
repairs it — contradicting the claim (and spec scenario 2), whose intent the
rest of the code documents. -/
theorem c1_local_provider_mismatch :
    (AddMemory [] [] cloudOutageEmbed (fun _ => "") {}
        { userId := "u1", content := "the server IP is 1.2.3.4" } "id1" 10).toOption.map
        (fun o => (o.mem.embedProvider, GetLocalMemories o.store 50)) =
      some ("Mock Local Embedder (Fallback)", []) ∧
    ("Mock Local Embedder (Fallback)" : String) ≠ "local" := by
  decide

/-! ### C3 -/

/-- C3: the count operation is SELECT COUNT(*) with no deleted_at filter, so
it counts soft-deleted rows; soft-deleting the only record leaves the
reported count at 1 while the number of visible rows is 0 — contradicting the
claim, the spec's soft-delete invisibility, and GetMemoryCount's own doc
comment ("active memory count"). -/
theorem c3_count_counts_soft_deleted :
    GetMemoryCount [demoRow] = 1 ∧
    GetMemoryCount (SoftDeleteByID [demoRow] "m1" 5) = 1 ∧
    visibleCount (SoftDeleteByID [demoRow] "m1" 5) = 0 := by
  decide

/-! ### C4 -/

/-- C4: a Dream fact entry with a non-empty supersedes and no id is routed
through SetMemory, whose fall-through drops the request's kind when building
the AddMemoryRequest; AddMemory then defaults the empty kind to conversation.
The created record carries the conflict_resolved tag but has
kind = "conversation", not "fact" — contradicting the claim and the intent
that dream.go documents by setting Kind on the SetMemoryRequest. -/
theorem c4_dream_fact_kind_dropped :
    (SetMemory [] [] (fun _ => 0) (fun _ => .ok ([3], "prov")) (fun _ => "") {}
        (dreamSetRequest "u1" "Server IP is 5.6.7.8" KindFact "1.2.3.4" "2026-02-03" [])
        "id1" 10).toOption.map
        (fun o => (o.mem.kind, o.mem.tags.contains "conflict_resolved")) =
      some (KindConversation, true) ∧
    KindConversation ≠ KindFact := by
  decide

/-! ### C6 -/

/-- C6 counterexample: with both clouds configured and healthy, the
cloud_first chain does not contain the alternate cloud (openai); when the
primary cloud fails, the batch is served by the local fallback rather than
the alternate cloud — refuting the claim that the cloud_first chain consists
of both cloud providers followed by local. -/
theorem c6_counterexample :
    Provider.openai ∉ chainForStrategy "cloud_first" ∧
    tryChainBatch bothCloudsEnv ["t"] (chainForStrategy "cloud_first") =
      some ([[0]], "Mock Local Embedder (Fallback)") := by
  decide

/-- C6 (amended): under the cloud_first strategy the chain tried for a
cache-missing batch is the primary cloud (Cloudflare) followed by the local
fallback, with local last; the alternate cloud is only part of the
accuracy_first chain. -/
theorem c6_cloud_first_chain :
    chainForStrategy "cloud_first" = [Provider.cloudflare, Provider.localP] ∧
    chainForStrategy "accuracy_first" =
      [Provider.openai, Provider.cloudflare, Provider.localP] := by
  decide

/-! ### C9 -/

/-- C9 counterexample: SoftDeleteByID has no deleted_at IS NULL guard, so a
second delete at a later instant overwrites deleted_at (and updated_at): two
deletes at times 1 and 2 do not yield the state of a single delete at time 1. -/
theorem c9_counterexample :
    SoftDeleteByID (SoftDeleteByID [demoRow] "m1" 1) "m1" 2 ≠
      SoftDeleteByID [demoRow] "m1" 1 := by
  decide

/-- C9 (amended): a second delete is not an error (the operation is total and
always succeeds) and the record remains soft-deleted, but its deleted_at is
overwritten with the second call's timestamp; the two-call state equals the
one-call state exactly when both calls carry the same timestamp. -/
theorem c9_second_delete (st : Store) (id : String) (t1 t2 : Time) :
    (∀ m, m ∈ SoftDeleteByID (SoftDeleteByID st id t1) id t2 → m.id = id →
      m.deletedAt = some t2) ∧
    SoftDeleteByID (SoftDeleteByID st id t1) id t1 = SoftDeleteByID st id t1 := by
  constructor
  · intro m hm hid
    simp only [SoftDeleteByID, List.map_map, List.mem_map, Function.comp_apply] at hm
    obtain ⟨m0, _, rfl⟩ := hm
    by_cases h : m0.id = id
    · simp [h]
    · simp [h] at hid
  · simp only [SoftDeleteByID, List.map_map]
    apply List.map_congr_left
    intro m _
    by_cases h : m.id = id
    · simp [h]
    · simp [h]

/-- C9 witness: the amended statement applied to the single-row store. -/
theorem c9_second_delete_witness :
    ({ demoRow with deletedAt := some 2, updatedAt := 2 } : Memory).deletedAt = some 2 ∧
    SoftDeleteByID (SoftDeleteByID [demoRow] "m1" 1) "m1" 1 =
      SoftDeleteByID [demoRow] "m1" 1 :=
  ⟨(c9_second_delete [demoRow] "m1" 1 2).1 _ (by decide) (by decide),
   (c9_second_delete [demoRow] "m1" 1 1).2⟩

/-! ### C10: budget eviction -/

/-- Pairs of a list zipped with itself are diagonal. -/
theorem mem_zip_self {α : Type} {p : α × α} :
    ∀ {l : List α}, p ∈ l.zip l → p.1 = p.2 := by
  intro l
  induction l with
  | nil => intro h; cases h
  | cons a t ih =>
    intro h
    rcases List.mem_cons.mp h with h | h
    · rw [h]
    · exact ih h

/-- Pairs of a list zipped with its image under f are (x, f x) with x a
member. -/
theorem mem_zip_map_self {α : Type} (f : α → α) {p : α × α} {l : List α}
    (hp : p ∈ l.zip (l.map f)) : p.1 ∈ l ∧ p.2 = f p.1 := by
  rw [List.zip_map_right] at hp
  obtain ⟨q, hq, rfl⟩ := List.mem_map.mp hp
  have hd := mem_zip_self hq
  have hm := (List.of_mem_zip hq).1
  constructor
  · exact hm
  · simp [Prod.map, ← hd]

/-- budgetLe is total. -/
theorem budgetLe_total (a b : Memory) : budgetLe a b = true ∨ budgetLe b a = true := by
  simp only [budgetLe, Bool.or_eq_true, Bool.and_eq_true, Nat.blt_eq, Nat.ble_eq,
    beq_iff_eq]
  omega

/-- budgetLe is transitive. -/
theorem budgetLe_trans (a b c : Memory) (h1 : budgetLe a b = true)
    (h2 : budgetLe b c = true) : budgetLe a c = true := by
  simp only [budgetLe, Bool.or_eq_true, Bool.and_eq_true, Nat.blt_eq, Nat.ble_eq,
    beq_iff_eq] at h1 h2 ⊢
  omega

/-- Unfolding of the eviction candidate predicate. -/
theorem budgetCandidate_spec {m : Memory} (h : budgetCandidate m = true) :
    m.deletedAt = none ∧ m.kind ≠ KindFact ∧ m.kind ≠ KindPreference := by
  simp only [budgetCandidate, Bool.and_eq_true, bne_iff_ne, ne_eq,
    Option.isNone_iff_eq_none] at h
  exact ⟨h.1.1, h.1.2, h.2⟩

/-- Core analysis of the eviction sweep: with unique row ids, soft-deleting
the ids of the first toDelete candidates in (access_count ASC, created_at ASC)
order preserves the visible fact and preference counts, only evicts visible
unprotected rows, and evicts only rows that compare at or below every
surviving candidate. -/
theorem budget_core (st : Store) (toDelete : Nat) (now : Time)
    (hnodup : (st.map Memory.id).Nodup) :
    ∀ ids, ids = ((sortBy budgetLe (st.filter budgetCandidate)).take toDelete).map Memory.id →
    ((SoftDeleteByIDs st ids now).countP
        (fun m => m.kind == KindFact && m.deletedAt.isNone) =
      st.countP (fun m => m.kind == KindFact && m.deletedAt.isNone)) ∧
    ((SoftDeleteByIDs st ids now).countP
        (fun m => m.kind == KindPreference && m.deletedAt.isNone) =
      st.countP (fun m => m.kind == KindPreference && m.deletedAt.isNone)) ∧
    (∀ p ∈ st.zip (SoftDeleteByIDs st ids now),
        p.2.deletedAt ≠ p.1.deletedAt →
        p.1.deletedAt = none ∧ p.1.kind ≠ KindFact ∧ p.1.kind ≠ KindPreference) ∧
    (∀ p ∈ st.zip (SoftDeleteByIDs st ids now),
        ∀ q ∈ st.zip (SoftDeleteByIDs st ids now),
        p.2.deletedAt ≠ p.1.deletedAt →
        budgetCandidate q.1 = true → q.2.deletedAt = none →
        budgetLe p.1 q.1 = true) := by
  intro ids hids
  have hr : ∀ a b c : Memory, (fun a b => budgetLe a b = true) a b →
      (fun a b => budgetLe a b = true) b c → (fun a b => budgetLe a b = true) a c :=
    budgetLe_trans
  -- membership in an id of the eviction list pins down the row itself
  have keyA : ∀ m ∈ st, m.id ∈ ids → budgetCandidate m = true ∧
      m ∈ (sortBy budgetLe (st.filter budgetCandidate)).take toDelete := by
    intro m hm hmid
    rw [hids] at hmid
    obtain ⟨m', hm', hEq⟩ := List.mem_map.mp hmid
    have hm'sorted : m' ∈ sortBy budgetLe (st.filter budgetCandidate) :=
      List.take_subset _ _ hm'
    have hm'cand : m' ∈ st.filter budgetCandidate := by
      simpa [sortBy] using hm'sorted
    have hm'st := (List.mem_filter.mp hm'cand).1
    have hm'p := (List.mem_filter.mp hm'cand).2
    have : m' = m := List.inj_on_of_nodup_map hnodup hm'st hm hEq
    subst this
    exact ⟨hm'p, hm'⟩
  refine ⟨?_, ?_, ?_, ?_⟩
  · rw [SoftDeleteByIDs, List.countP_map]
    apply List.countP_congr
    intro m hm
    by_cases hc : m.id ∈ ids
    · have hkind := (budgetCandidate_spec (keyA m hm hc).1).2.1
      simp [Function.comp, hc, hkind]
    · simp [Function.comp, hc]
  · rw [SoftDeleteByIDs, List.countP_map]
    apply List.countP_congr
    intro m hm
    by_cases hc : m.id ∈ ids
    · have hkind := (budgetCandidate_spec (keyA m hm hc).1).2.2
      simp [Function.comp, hc, hkind]
    · simp [Function.comp, hc]
  · intro p hp hne
    obtain ⟨hp1, hp2⟩ := mem_zip_map_self _ hp
    by_cases hc : p.1.id ∈ ids
    · exact budgetCandidate_spec (keyA p.1 hp1 hc).1
    · exfalso
      apply hne
      rw [hp2]
      simp [hc]
  · intro p hp q hq hne hqcand hqvis
    obtain ⟨hp1, hp2⟩ := mem_zip_map_self _ hp
    obtain ⟨hq1, hq2⟩ := mem_zip_map_self _ hq
    -- the evicted row is in the taken prefix
    have hcp : p.1.id ∈ ids := by
      by_contra hc
      apply hne
      rw [hp2]
      simp [hc]
    have hptk := (keyA p.1 hp1 hcp).2
    -- the surviving candidate is in the dropped suffix
    have hcq : q.1.id ∉ ids := by
      intro hc
      rw [hq2] at hqvis
      simp [hc] at hqvis
    have hqsorted : q.1 ∈ sortBy budgetLe (st.filter budgetCandidate) := by
      simp only [sortBy, List.mem_insertionSort]
      exact List.mem_filter.mpr ⟨hq1, hqcand⟩
    have hqdrop : q.1 ∈ (sortBy budgetLe (st.filter budgetCandidate)).drop toDelete := by
      have hsplit := (List.take_append_drop toDelete
        (sortBy budgetLe (st.filter budgetCandidate))).symm
      rw [hsplit] at hqsorted
      rcases List.mem_append.mp hqsorted with h | h
      · exfalso
        apply hcq
        rw [hids]
        exact List.mem_map.mpr ⟨q.1, h, rfl⟩
      · exact h
    -- sortedness yields the comparison across the take/drop split
    haveI : IsTotal Memory (fun a b => budgetLe a b = true) := ⟨budgetLe_total⟩
    haveI : IsTrans Memory (fun a b => budgetLe a b = true) := ⟨fun a b c => hr a b c⟩
    have hsorted : List.Sorted (fun a b => budgetLe a b = true)
        (sortBy budgetLe (st.filter budgetCandidate)) := by
      simp only [sortBy]
      exact List.sorted_insertionSort _ _
    rw [← List.take_append_drop toDelete
      (sortBy budgetLe (st.filter budgetCandidate))] at hsorted
    exact (List.pairwise_append.mp hsorted).2.2 p.1 hptk q.1 hqdrop

/-- The budget conclusions hold trivially when the sweep leaves the store
unchanged. -/
theorem budget_noop (st : Store) :
    (st.countP (fun m => m.kind == KindFact && m.deletedAt.isNone) =
      st.countP (fun m => m.kind == KindFact && m.deletedAt.isNone)) ∧
    (st.countP (fun m => m.kind == KindPreference && m.deletedAt.isNone) =
      st.countP (fun m => m.kind == KindPreference && m.deletedAt.isNone)) ∧
    (∀ p ∈ st.zip st, p.2.deletedAt ≠ p.1.deletedAt →
      p.1.deletedAt = none ∧ p.1.kind ≠ KindFact ∧ p.1.kind ≠ KindPreference) ∧
    (∀ p ∈ st.zip st, ∀ q ∈ st.zip st, p.2.deletedAt ≠ p.1.deletedAt →
      budgetCandidate q.1 = true → q.2.deletedAt = none →
      budgetLe p.1 q.1 = true) := by
  refine ⟨rfl, rfl, ?_, ?_⟩
  · intro p hp hne
    exact absurd (congrArg Memory.deletedAt (mem_zip_self hp).symm) hne
  · intro p hp q hq hne _ _
    exact absurd (congrArg Memory.deletedAt (mem_zip_self hp).symm) hne

/-- C10: with unique row ids, enforce_budget leaves the number of visible
fact rows and visible preference rows unchanged; every row it soft-deletes
was visible with a kind outside {fact, preference}; and eviction follows
(access_count ASC, created_at ASC): every evicted row compares at or below
every surviving visible unprotected row. -/
theorem c10_enforce_budget_protects (st : Store) (budget : Int) (now : Time)
    (hnodup : (st.map Memory.id).Nodup) :
    ((EnforceMemoryBudget st budget now).2.countP
        (fun m => m.kind == KindFact && m.deletedAt.isNone) =
      st.countP (fun m => m.kind == KindFact && m.deletedAt.isNone)) ∧
    ((EnforceMemoryBudget st budget now).2.countP
        (fun m => m.kind == KindPreference && m.deletedAt.isNone) =
      st.countP (fun m => m.kind == KindPreference && m.deletedAt.isNone)) ∧
    (∀ p ∈ st.zip (EnforceMemoryBudget st budget now).2,
        p.2.deletedAt ≠ p.1.deletedAt →
        p.1.deletedAt = none ∧ p.1.kind ≠ KindFact ∧ p.1.kind ≠ KindPreference) ∧
    (∀ p ∈ st.zip (EnforceMemoryBudget st budget now).2,
        ∀ q ∈ st.zip (EnforceMemoryBudget st budget now).2,
        p.2.deletedAt ≠ p.1.deletedAt →
        budgetCandidate q.1 = true → q.2.deletedAt = none →
        budgetLe p.1 q.1 = true) := by
  by_cases hb : budget ≤ 0
  · simp only [EnforceMemoryBudget, if_pos hb]
    exact ⟨trivial, trivial, (budget_noop st).2.2.1, (budget_noop st).2.2.2⟩
  · by_cases hcnt : visibleCount st ≤ budget.toNat
    · simp only [EnforceMemoryBudget, if_neg hb, if_pos hcnt]
      exact ⟨trivial, trivial, (budget_noop st).2.2.1, (budget_noop st).2.2.2⟩
    · simp only [EnforceMemoryBudget, if_neg hb, if_neg hcnt]
      exact budget_core st (visibleCount st - budget.toNat) now hnodup _ rfl

/-- The store of spec scenario 5: five conversations and two facts. -/
def c10store : Store :=
  [ { id := "c1", userId := "u", content := "a", status := StatusActive,
      kind := KindConversation, accessCount := 3, lastAccessedAt := 1,
      createdAt := 1, updatedAt := 1 },
    { id := "c2", userId := "u", content := "b", status := StatusActive,
      kind := KindConversation, accessCount := 1, lastAccessedAt := 2,
      createdAt := 2, updatedAt := 2 },
    { id := "c3", userId := "u", content := "c", status := StatusActive,
      kind := KindConversation, accessCount := 2, lastAccessedAt := 3,
      createdAt := 3, updatedAt := 3 },
    { id := "c4", userId := "u", content := "d", status := StatusActive,
      kind := KindConversation, accessCount := 0, lastAccessedAt := 4,
      createdAt := 4, updatedAt := 4 },
    { id := "c5", userId := "u", content := "e", status := StatusActive,
      kind := KindConversation, accessCount := 5, lastAccessedAt := 5,
      createdAt := 5, updatedAt := 5 },
    { id := "f1", userId := "u", content := "f", status := StatusActive,
      kind := KindFact, accessCount := 0, lastAccessedAt := 6,
      createdAt := 6, updatedAt := 6 },
    { id := "f2", userId := "u", content := "g", status := StatusActive,
      kind := KindFact, accessCount := 0, lastAccessedAt := 7,
      createdAt := 7, updatedAt := 7 } ]

/-- C10 witness: the theorem applied to the scenario-5 store with budget 3. -/
theorem c10_enforce_budget_protects_witness :
    (EnforceMemoryBudget c10store 3 99).2.countP
        (fun m => m.kind == KindFact && m.deletedAt.isNone) =
      c10store.countP (fun m => m.kind == KindFact && m.deletedAt.isNone) :=
  (c10_enforce_budget_protects c10store 3 99 (by decide)).1

/-! ### C2: the semantic delete reaps the preference tier -/

/-- addSeen only ever appends to the result list. -/
theorem addSeen_results_extend (a : SearchAcc) (m : Memory) (s : Rat) :
    ∃ t, (addSeen a m s).results = a.results ++ t := by
  by_cases h : m.id ∈ a.seen
  · exact ⟨[], by simp [addSeen, h]⟩
  · exact ⟨[{ memory := m, score := s }], by simp [addSeen, h]⟩

/-- A fold of addSeen only ever appends to the result list. -/
theorem foldl_addSeen_extend (l : List Memory) (s : Rat) (a : SearchAcc) :
    ∃ t, (l.foldl (fun acc x => addSeen acc x s) a).results = a.results ++ t := by
  induction l generalizing a with
  | nil => exact ⟨[], by simp⟩
  | cons m l ih =>
    obtain ⟨t1, ht1⟩ := ih (addSeen a m s)
    obtain ⟨t0, ht0⟩ := addSeen_results_extend a m s
    exact ⟨t0 ++ t1, by simp [List.foldl_cons, ht1, ht0]⟩

/-- The tier-3 step only ever appends to the result list. -/
theorem vectorStep_results_extend (now : Time) (scores : List (String × Rat))
    (p : SearchAcc × Store) (m : Memory) :
    ∃ t, (vectorStep now scores p m).1.results = p.1.results ++ t := by
  by_cases h : (m.kind != KindPreference && m.kind != KindSummary) = true
  · exact ⟨[{ memory := m, score := (scores.lookup m.id).getD 0 }], by simp [vectorStep, h]⟩
  · exact ⟨[], by simp [vectorStep, h]⟩

/-- A fold of the tier-3 step only ever appends to the result list. -/
theorem foldl_vectorStep_extend (l : List Memory) (now : Time)
    (scores : List (String × Rat)) (p : SearchAcc × Store) :
    ∃ t, (l.foldl (vectorStep now scores) p).1.results = p.1.results ++ t := by
  induction l generalizing p with
  | nil => exact ⟨[], by simp⟩
  | cons m l ih =>
    obtain ⟨t1, ht1⟩ := ih (vectorStep now scores p m)
    obtain ⟨t0, ht0⟩ := vectorStep_results_extend now scores p m
    exact ⟨t0 ++ t1, by simp [List.foldl_cons, ht1, ht0]⟩

/-- Along a fold of addSeen at score s: every seen id keeps a score-s result,
previously seen ids stay seen, and every folded row's id becomes seen. -/
theorem addSeen_fold_inv (s : Rat) (l : List Memory) (a : SearchAcc)
    (hinv : ∀ i ∈ a.seen, ∃ r ∈ a.results, r.memory.id = i ∧ r.score = s) :
    (∀ i ∈ (l.foldl (fun acc x => addSeen acc x s) a).seen,
      ∃ r ∈ (l.foldl (fun acc x => addSeen acc x s) a).results,
        r.memory.id = i ∧ r.score = s) ∧
    (∀ i ∈ a.seen, i ∈ (l.foldl (fun acc x => addSeen acc x s) a).seen) ∧
    (∀ m ∈ l, m.id ∈ (l.foldl (fun acc x => addSeen acc x s) a).seen) := by
  induction l generalizing a with
  | nil => exact ⟨hinv, fun i hi => hi, by simp⟩
  | cons m l ih =>
    have hinv' : ∀ i ∈ (addSeen a m s).seen,
        ∃ r ∈ (addSeen a m s).results, r.memory.id = i ∧ r.score = s := by
      intro i hi
      by_cases h : a.seen.contains m.id = true
      · rw [addSeen, if_pos h] at hi ⊢
        exact hinv i hi
      · rw [addSeen, if_neg h] at hi ⊢
        simp only [List.mem_append, List.mem_singleton] at hi
        rcases hi with hi | hi
        · obtain ⟨r, hr, hrp⟩ := hinv i hi
          exact ⟨r, by simp [hr], hrp⟩
        · exact ⟨{ memory := m, score := s }, by simp, by simp [hi]⟩
    have hseen' : ∀ i ∈ a.seen, i ∈ (addSeen a m s).seen := by
      intro i hi
      by_cases h : a.seen.contains m.id = true
      · rw [addSeen, if_pos h]; exact hi
      · rw [addSeen, if_neg h]; simp [hi]
    have hm' : m.id ∈ (addSeen a m s).seen := by
      by_cases h : a.seen.contains m.id = true
      · rw [addSeen, if_pos h]
        simpa using h
      · rw [addSeen, if_neg h]; simp
    obtain ⟨i1, i2, i3⟩ := ih (addSeen a m s) hinv'
    refine ⟨i1, ?_, ?_⟩
    · intro i hi
      exact i2 i (hseen' i hi)
    · intro x hx
      rcases List.mem_cons.mp hx with hx | hx
      · rw [hx]
        exact i2 m.id hm'
      · exact i3 x hx

/-- Every preference returned by the preference tier has a score-1.0 result
in the tier-1/2 accumulator. -/
theorem tier12_pref_covered (st : Store) (userId query : String) (now : Time) :
    ∀ p ∈ (SearchPreferences st userId 6 now).1,
      ∃ r ∈ (tier12 st userId query now).1.results,
        r.memory.id = p.id ∧ r.score = scorePref := by
  intro p hp
  have base : ∀ i ∈ (({} : SearchAcc)).seen,
      ∃ r ∈ (({} : SearchAcc)).results, r.memory.id = i ∧ r.score = scorePref := by
    intro i hi
    simp at hi
  obtain ⟨i1, _, i3⟩ := addSeen_fold_inv scorePref (SearchPreferences st userId 6 now).1 {} base
  obtain ⟨r, hr, hrp⟩ := i1 p.id (i3 p hp)
  rw [tier12]
  by_cases hc : (SearchSummariesByKeyword (SearchPreferences st userId 6 now).2 userId
      (if query == "" then [] else fields query) 3 now).1.isEmpty = true
  · simp only [hc, if_pos]
    obtain ⟨t, ht⟩ := foldl_addSeen_extend
      (GetRecentConversations
        (SearchSummariesByKeyword (SearchPreferences st userId 6 now).2 userId
          (if query == "" then [] else fields query) 3 now).2 userId 5) scoreFallback
      ((SearchPreferences st userId 6 now).1.foldl (fun a m => addSeen a m scorePref) {})
    refine ⟨r, ?_, hrp⟩
    simp only [hc, if_pos, ht]
    exact List.mem_append_left _ hr
  · obtain ⟨t, ht⟩ := foldl_addSeen_extend
      (SearchSummariesByKeyword (SearchPreferences st userId 6 now).2 userId
        (if query == "" then [] else fields query) 3 now).1 scoreSummary
      ((SearchPreferences st userId 6 now).1.foldl (fun a m => addSeen a m scorePref) {})
    refine ⟨r, ?_, hrp⟩
    simp only [hc, if_neg, Bool.false_eq_true, if_false, ht]
    exact List.mem_append_left _ hr

/-- SearchMemory's result list extends the tier-1/2 results. -/
theorem searchMemory_extends_tier12 (st : Store) (vs : VStore) (sim : String → Rat)
    (userId query : String) (topK : Int) (sessionId : String) (now : Time) :
    ∃ t, (SearchMemory st vs sim userId query topK sessionId now).1 =
      (tier12 st userId query now).1.results ++ t := by
  rw [SearchMemory, tier3]
  exact foldl_vectorStep_extend _ now _ _

/-- Rows hit by SoftDeleteByIDs carry the deletion timestamp. -/
theorem softDeleteByIDs_deleted (st : Store) (ids : List String) (now : Time) :
    ∀ row ∈ SoftDeleteByIDs st ids now, row.id ∈ ids → row.deletedAt = some now := by
  intro row hrow hid
  rw [SoftDeleteByIDs] at hrow
  obtain ⟨m0, _, rfl⟩ := List.mem_map.mp hrow
  by_cases h : m0.id ∈ ids
  · simp [h]
  · simp [h] at hid

/-- C2: for any tenant, query text and threshold at most 1.0, the semantic
delete (and hence SetMemory's pre-deduplication step) soft-deletes every
preference record returned by the preference tier of the underlying search:
the tier assigns them the fixed score 1.0, which is at or above the effective
threshold (the given one, or the 0.85 default when it is non-positive). -/
theorem c2_delete_by_query_reaps_preferences (st : Store) (vs : VStore)
    (sim : String → Rat) (userId query : String) (threshold : Rat) (now : Time)
    (hth : threshold ≤ 1) :
    ∀ p ∈ (SearchPreferences st userId 6 now).1,
      p.id ∈ (DeleteMemoriesByQuery st vs sim userId query threshold now).ids ∧
      ∀ row ∈ (DeleteMemoriesByQuery st vs sim userId query threshold now).store,
        row.id = p.id → row.deletedAt = some now := by
  intro p hp
  have hone : scorePref = 1 := rfl
  have hth1 : (if threshold ≤ 0 then defaultThreshold else threshold) ≤ 1 := by
    split
    · decide
    · exact hth
  obtain ⟨r, hr, hrid, hrs⟩ := tier12_pref_covered st userId query now p hp
  obtain ⟨t, ht⟩ := searchMemory_extends_tier12 st vs sim userId query 50 "" now
  have hrfin : r ∈ (SearchMemory st vs sim userId query 50 "" now).1 := by
    rw [ht]
    exact List.mem_append_left _ hr
  have hid : p.id ∈ (SearchMemory st vs sim userId query 50 "" now).1.filterMap
      (fun r => if (if threshold ≤ 0 then defaultThreshold else threshold) ≤ r.score then
        some r.memory.id else none) := by
    apply List.mem_filterMap.mpr
    refine ⟨r, hrfin, ?_⟩
    rw [hrs, hone, if_pos hth1, hrid]
  have hnonempty : ((SearchMemory st vs sim userId query 50 "" now).1.filterMap
      (fun r => if (if threshold ≤ 0 then defaultThreshold else threshold) ≤ r.score then
        some r.memory.id else none)).isEmpty = false := by
    rw [List.isEmpty_eq_false_iff_exists_mem]
    exact ⟨p.id, hid⟩
  constructor
  · rw [DeleteMemoriesByQuery]
    simp only [hnonempty, Bool.false_eq_true, if_false]
    exact hid
  · intro row hrow hrowid
    rw [DeleteMemoriesByQuery] at hrow
    simp only [hnonempty, Bool.false_eq_true, if_false] at hrow
    have := softDeleteByIDs_deleted _ _ _ row hrow
    rw [hrowid] at this
    exact this hid

/-- A single visible preference row for tenant u1. -/
def prefRowU1 : Memory :=
  { id := "p1", userId := "u1", content := "I like Go programming",
    status := StatusActive, kind := KindPreference, createdAt := 1,
    updatedAt := 1, lastAccessedAt := 1 }

/-- C2 witness: with one active preference for u1 and threshold 0.9, the
semantic delete's id list contains the preference. -/
theorem c2_delete_by_query_reaps_preferences_witness :
    prefRowU1.id ∈ (DeleteMemoriesByQuery [prefRowU1] [] (fun _ => 0)
      "u1" "unrelated query" 0.9 5).ids :=
  (c2_delete_by_query_reaps_preferences [prefRowU1] [] (fun _ => 0)
    "u1" "unrelated query" 0.9 5 (by norm_num) prefRowU1 (by decide)).1

/-! ### C8: tenant isolation of recall -/

/-- Rows surviving take-of-sort-of-filter satisfy the filter. -/
theorem mem_take_sortBy_filter {α : Type} (le : α → α → Bool) (pred : α → Bool)
    (l : List α) (n : Nat) :
    ∀ x ∈ (sortBy le (l.filter pred)).take n, x ∈ l ∧ pred x = true := by
  intro x hx
  have h1 := List.take_subset _ _ hx
  rw [sortBy, List.mem_insertionSort] at h1
  exact ⟨(List.mem_filter.mp h1).1, (List.mem_filter.mp h1).2⟩

/-- Preference-tier rows belong to the tenant. -/
theorem searchPreferences_userId (st : Store) (u : String) (l : Nat) (now : Time) :
    ∀ m ∈ (SearchPreferences st u l now).1, m.userId = u := by
  intro m hm
  rw [SearchPreferences] at hm
  have h := (mem_take_sortBy_filter updatedDescLe (prefRow u) st l m hm).2
  simp only [prefRow, Bool.and_eq_true, beq_iff_eq] at h
  exact h.1.1.1

/-- Summary-tier rows belong to the tenant. -/
theorem searchSummaries_userId (st : Store) (u : String) (kws : List String)
    (l : Nat) (now : Time) :
    ∀ m ∈ (SearchSummariesByKeyword st u kws l now).1, m.userId = u := by
  intro m hm
  rw [SearchSummariesByKeyword] at hm
  have h := (mem_take_sortBy_filter updatedDescLe (summaryRow u kws) st l m hm).2
  simp only [summaryRow, Bool.and_eq_true, beq_iff_eq] at h
  exact h.1.1.1.1

/-- Fallback conversations belong to the tenant. -/
theorem recentConversations_userId (st : Store) (u : String) (l : Nat) :
    ∀ m ∈ GetRecentConversations st u l, m.userId = u := by
  intro m hm
  rw [GetRecentConversations] at hm
  have h := (mem_take_sortBy_filter createdDescLe (convRow u) st l m hm).2
  simp only [convRow, Bool.and_eq_true, beq_iff_eq] at h
  exact h.1.1.1

/-- A memory-level property carried by every folded row and every accumulated
result survives a fold of addSeen. -/
theorem foldl_addSeen_preserve (P : Memory → Prop) (l : List Memory) (s : Rat)
    (a : SearchAcc) (ha : ∀ r ∈ a.results, P r.memory) (hl : ∀ m ∈ l, P m) :
    ∀ r ∈ (l.foldl (fun acc x => addSeen acc x s) a).results, P r.memory := by
  induction l generalizing a with
  | nil => exact ha
  | cons m l ih =>
    apply ih (addSeen a m s)
    · intro r hr
      by_cases h : a.seen.contains m.id = true
      · rw [addSeen, if_pos h] at hr
        exact ha r hr
      · rw [addSeen, if_neg h] at hr
        simp only [List.mem_append, List.mem_singleton] at hr
        rcases hr with hr | hr
        · exact ha r hr
        · rw [hr]
          exact hl m (by simp)
    · intro x hx
      exact hl x (by simp [hx])

/-- Every result of a tier-3 fold is an old result or hydrates a folded row. -/
theorem foldl_vectorStep_origin (l : List Memory) (now : Time)
    (scores : List (String × Rat)) (p : SearchAcc × Store) :
    ∀ r ∈ (l.foldl (vectorStep now scores) p).1.results,
      r ∈ p.1.results ∨ ∃ m ∈ l, r.memory = m := by
  induction l generalizing p with
  | nil => exact fun r hr => Or.inl hr
  | cons m l ih =>
    intro r hr
    rcases ih (vectorStep now scores p m) r hr with h | h
    · rw [vectorStep] at h
      by_cases hk : (m.kind != KindPreference && m.kind != KindSummary) = true
      · simp only [hk, if_pos, List.mem_append, List.mem_singleton] at h
        rcases h with h | h
        · exact Or.inl h
        · exact Or.inr ⟨m, by simp, by rw [h]⟩
      · simp only [hk, if_neg, not_false_eq_true] at h
        exact Or.inl h
    · obtain ⟨m', hm', hr'⟩ := h
      exact Or.inr ⟨m', by simp [hm'], hr'⟩

/-- Every tier-1/2 result belongs to the tenant. -/
theorem tier12_userId (st : Store) (u q : String) (now : Time) :
    ∀ r ∈ (tier12 st u q now).1.results, r.memory.userId = u := by
  intro r hr
  rw [tier12] at hr
  by_cases hc : (SearchSummariesByKeyword (SearchPreferences st u 6 now).2 u
      (if q == "" then [] else fields q) 3 now).1.isEmpty = true
  · simp only [hc, if_pos] at hr
    refine foldl_addSeen_preserve (fun m => m.userId = u) _ scoreFallback _ ?_ ?_ r hr
    · intro r' hr'
      refine foldl_addSeen_preserve (fun m => m.userId = u) _ scorePref {} ?_ ?_ r' hr'
      · intro x hx
        simp at hx
      · exact searchPreferences_userId st u 6 now
    · exact recentConversations_userId _ u 5
  · simp only [hc, if_neg, Bool.false_eq_true, if_false] at hr
    refine foldl_addSeen_preserve (fun m => m.userId = u) _ scoreSummary _ ?_ ?_ r hr
    · intro r' hr'
      refine foldl_addSeen_preserve (fun m => m.userId = u) _ scorePref {} ?_ ?_ r' hr'
      · intro x hx
        simp at hx
      · exact searchPreferences_userId st u 6 now
    · exact searchSummaries_userId _ u _ 3 now

/-- Hydration membership: GetByIDs only returns visible rows of the store
whose id is in the requested list. -/
theorem mem_GetByIDs {st : Store} {ids : List String} {m : Memory}
    (hm : m ∈ GetByIDs st ids) : m ∈ st ∧ m.id ∈ ids := by
  rw [GetByIDs] at hm
  have h := List.mem_filter.mp hm
  refine ⟨h.1, ?_⟩
  have h2 := h.2
  simp only [Bool.and_eq_true] at h2
  simpa using h2.1

/-- Every id returned by the vector query comes from an entry matching the
metadata filter. -/
theorem vsQuery_meta (vs : VStore) (sim : String → Rat) (k : Nat)
    (filt : List (String × String)) :
    ∀ pr ∈ vsQuery vs sim k filt, ∃ e ∈ vs, e.id = pr.1 ∧ metaMatches filt e = true := by
  intro pr hpr
  rw [vsQuery] at hpr
  obtain ⟨e, he, hpe⟩ := List.mem_map.mp hpr
  have h := mem_take_sortBy_filter (simDescLe sim) (metaMatches filt) vs k e he
  exact ⟨e, h.1, by rw [← hpe], h.2⟩

/-- An entry matching a filter has the filter's value at every filter key. -/
theorem metaMatches_lookup {filt : List (String × String)} {e : VecEntry}
    (h : metaMatches filt e = true) {kv : String × String} (hkv : kv ∈ filt) :
    e.meta.lookup kv.1 = some kv.2 := by
  rw [metaMatches, List.all_eq_true] at h
  simpa using h kv hkv

/-- id/user preservation between two stores. -/
def PresIdUser (st st2 : Store) : Prop :=
  ∀ row ∈ st2, ∃ r0 ∈ st, row.id = r0.id ∧ row.userId = r0.userId

/-- The access bump preserves id and user of every row. -/
theorem presIdUser_update (st : Store) (id : String) (now : Time) :
    PresIdUser st (UpdateAccessCount st id now) := by
  intro row hrow
  rw [UpdateAccessCount] at hrow
  obtain ⟨m0, hm0, rfl⟩ := List.mem_map.mp hrow
  refine ⟨m0, hm0, ?_, ?_⟩ <;> by_cases h : m0.id = id <;> simp [h]

/-- PresIdUser composes. -/
theorem presIdUser_trans {st1 st2 st3 : Store} (h12 : PresIdUser st1 st2)
    (h23 : PresIdUser st2 st3) : PresIdUser st1 st3 := by
  intro row hrow
  obtain ⟨r2, hr2, hid2, hu2⟩ := h23 row hrow
  obtain ⟨r1, hr1, hid1, hu1⟩ := h12 r2 hr2
  exact ⟨r1, hr1, hid2.trans hid1, hu2.trans hu1⟩

/-- A fold of access bumps preserves id and user of every row. -/
theorem presIdUser_foldl (l : List Memory) (now : Time) :
    ∀ st : Store, PresIdUser st (l.foldl (fun s m => UpdateAccessCount s m.id now) st) := by
  induction l with
  | nil => exact fun st row hrow => ⟨row, hrow, rfl, rfl⟩
  | cons m l ih =>
    intro st
    exact presIdUser_trans (presIdUser_update st m.id now)
      (ih (UpdateAccessCount st m.id now))

/-- The tier-1/2 store only differs from the input by access bumps. -/
theorem tier12_store_pres (st : Store) (u q : String) (now : Time) :
    PresIdUser st (tier12 st u q now).2 := by
  rw [tier12]
  by_cases hc : (SearchSummariesByKeyword (SearchPreferences st u 6 now).2 u
      (if q == "" then [] else fields q) 3 now).1.isEmpty = true
  all_goals
    exact presIdUser_trans
      (presIdUser_foldl _ now st)
      (presIdUser_foldl _ now (SearchPreferences st u 6 now).2)

/-- C8: tenant isolation of recall.  Under the metadata-consistency invariant
(the vector entry for an id carries that row's user_id), every record
returned by SearchMemory for tenant A has user_id = A, across all three
tiers. -/
theorem c8_tenant_isolation (st : Store) (vs : VStore) (sim : String → Rat)
    (userId query : String) (topK : Int) (sessionId : String) (now : Time)
    (hcons : ∀ e ∈ vs, ∀ row ∈ st, e.id = row.id →
      e.meta.lookup "user_id" = some row.userId) :
    ∀ r ∈ (SearchMemory st vs sim userId query topK sessionId now).1,
      r.memory.userId = userId := by
  intro r hr
  rw [SearchMemory, tier3] at hr
  rcases foldl_vectorStep_origin _ now _ _ r hr with h | h
  · exact tier12_userId st userId query now r h
  · obtain ⟨m, hm, hrm⟩ := h
    obtain ⟨hmst2, hmid⟩ := mem_GetByIDs hm
    -- the id came from the filtered vector query
    obtain ⟨x, hx, hxid⟩ := List.mem_map.mp hmid
    have hxq := List.mem_of_mem_filter hx
    obtain ⟨e, he, heid, hematch⟩ := vsQuery_meta vs sim _ _ x hxq
    have hu : e.meta.lookup "user_id" = some userId :=
      @metaMatches_lookup _ _ hematch ("user_id", userId)
        (List.mem_append_left _ (List.mem_singleton_self _))
    -- hydrated row's id and user trace back to the original store
    obtain ⟨r0, hr0, hid0, hu0⟩ := tier12_store_pres st userId query now m hmst2
    have heid0 : e.id = r0.id := by
      rw [heid, hxid, hid0]
    have := hcons e he r0 hr0 heid0
    rw [hu] at this
    rw [hrm, hu0]
    exact (Option.some_injective _ this).symm

/-- A vector entry for prefRowU1, with consistent user_id metadata. -/
def vecEntryU1 : VecEntry :=
  { id := "p1", doc := "I like Go programming", meta := [("user_id", "u1")], vec := [] }

/-- C8 witness: the isolation theorem applied to a one-record tenant. -/
theorem c8_tenant_isolation_witness :
    ({ memory := prefRowU1, score := scorePref } : SearchResult).memory.userId = "u1" :=
  c8_tenant_isolation [prefRowU1] [vecEntryU1] (fun _ => 0) "u1" "Go CLI" 5 "" 7
    (by decide) { memory := prefRowU1, score := scorePref } (by decide)

/-! ### C7: zero-token queries and the conversation fallback -/

/-- Rows of a bumped store come from rows of the store with the same id, and
agree on every predicate that ignores access_count and last_accessed_at. -/
theorem updateAccessCount_row (st : Store) (i : String) (now : Time) :
    ∀ row ∈ UpdateAccessCount st i now, ∃ r0 ∈ st, row.id = r0.id ∧
      (row.accessCount = r0.accessCount ∨ row.id = i) ∧
      ∀ (p : Memory → Bool),
        (∀ m t, p { m with accessCount := m.accessCount + 1, lastAccessedAt := t } = p m) →
        p row = p r0 := by
  intro row hrow
  rw [UpdateAccessCount] at hrow
  obtain ⟨m0, hm0, rfl⟩ := List.mem_map.mp hrow
  by_cases h : m0.id = i
  · have hgm : (if (m0.id == i) = true then
        { m0 with accessCount := m0.accessCount + 1, lastAccessedAt := now } else m0) =
        { m0 with accessCount := m0.accessCount + 1, lastAccessedAt := now } := by
      simp [h]
    refine ⟨m0, hm0, by rw [hgm], Or.inr (by rw [hgm]; exact h), ?_⟩
    intro p hp
    rw [hgm]
    exact hp m0 now
  · have hgm : (if (m0.id == i) = true then
        { m0 with accessCount := m0.accessCount + 1, lastAccessedAt := now } else m0) =
        m0 := by
      simp [h]
    exact ⟨m0, hm0, by rw [hgm], Or.inl (by rw [hgm]), fun p _ => by rw [hgm]⟩

/-- A single access bump does not change the rows selected by a
bump-invariant predicate that fails on every row with the bumped id. -/
theorem updateAccessCount_filter_eq (p : Memory → Bool)
    (hp : ∀ m t, p { m with accessCount := m.accessCount + 1, lastAccessedAt := t } = p m)
    (st : Store) (i : String) (now : Time)
    (hfail : ∀ row ∈ st, row.id = i → p row = false) :
    (UpdateAccessCount st i now).filter p = st.filter p := by
  revert hfail
  induction st with
  | nil => intro _; rfl
  | cons r t ih =>
    intro hfail
    rw [UpdateAccessCount, List.map_cons, List.filter_cons, List.filter_cons]
    have htail : (UpdateAccessCount t i now).filter p = t.filter p :=
      ih (fun row hr hid => hfail row (List.mem_cons_of_mem _ hr) hid)
    rw [UpdateAccessCount] at htail
    by_cases hid : r.id = i
    · have hpr : p r = false := hfail r (List.mem_cons_self _ _) hid
      have hgm : (if (r.id == i) = true then
          { r with accessCount := r.accessCount + 1, lastAccessedAt := now } else r) =
          { r with accessCount := r.accessCount + 1, lastAccessedAt := now } := by
        simp [hid]
      have hbump : p (if (r.id == i) = true then
          { r with accessCount := r.accessCount + 1, lastAccessedAt := now } else r) =
          false := by
        rw [hgm, hp r now]
        exact hpr
      rw [hbump, hpr, htail]
      simp
    · have hgm : (if (r.id == i) = true then
          { r with accessCount := r.accessCount + 1, lastAccessedAt := now } else r) = r := by
        simp [hid]
      rw [hgm, htail]

/-- A fold of access bumps over rows whose ids all avoid the selection does
not change the rows selected by a bump-invariant predicate. -/
theorem foldl_bump_filter_eq (p : Memory → Bool)
    (hp : ∀ m t, p { m with accessCount := m.accessCount + 1, lastAccessedAt := t } = p m)
    (now : Time) :
    ∀ (l : List Memory) (st : Store),
    (∀ m ∈ l, ∀ row ∈ st, row.id = m.id → p row = false) →
    (l.foldl (fun s x => UpdateAccessCount s x.id now) st).filter p = st.filter p := by
  intro l
  induction l with
  | nil => intro st _; rfl
  | cons m l ih =>
    intro st hall
    rw [List.foldl_cons]
    have h1 : (UpdateAccessCount st m.id now).filter p = st.filter p :=
      updateAccessCount_filter_eq p hp st m.id now
        (fun row hr hid => hall m (List.mem_cons_self _ _) row hr hid)
    have hall' : ∀ x ∈ l, ∀ row ∈ UpdateAccessCount st m.id now,
        row.id = x.id → p row = false := by
      intro x hx row hrow hid
      obtain ⟨r0, hr0, hid0, _, hpres⟩ := updateAccessCount_row st m.id now row hrow
      rw [hpres p hp]
      exact hall x (List.mem_cons_of_mem _ hx) r0 hr0 (hid0.symm.trans hid)
    rw [ih (UpdateAccessCount st m.id now) hall', h1]

/-- Ids seen after a fold of addSeen are previous ids or folded row ids. -/
theorem addSeen_fold_seen_origin (s : Rat) (l : List Memory) (a : SearchAcc) :
    ∀ i ∈ (l.foldl (fun acc x => addSeen acc x s) a).seen,
      i ∈ a.seen ∨ ∃ m ∈ l, m.id = i := by
  induction l generalizing a with
  | nil => exact fun i hi => Or.inl hi
  | cons m l ih =>
    intro i hi
    rcases ih (addSeen a m s) i hi with h | h
    · by_cases hc : a.seen.contains m.id = true
      · rw [addSeen, if_pos hc] at h
        exact Or.inl h
      · rw [addSeen, if_neg hc] at h
        simp only [List.mem_append, List.mem_singleton] at h
        rcases h with h | h
        · exact Or.inl h
        · exact Or.inr ⟨m, List.mem_cons_self _ _, h.symm⟩
    · obtain ⟨m', hm', hi'⟩ := h
      exact Or.inr ⟨m', List.mem_cons_of_mem _ hm', hi'⟩

/-- When no folded id is pre-seen and folded ids are distinct, every folded
row is added with the fold's score. -/
theorem addSeen_fold_adds (s : Rat) (l : List Memory) (a : SearchAcc)
    (hl : ∀ m ∈ l, m.id ∉ a.seen) (hnodup : (l.map Memory.id).Nodup) :
    ∀ m ∈ l, ({ memory := m, score := s } : SearchResult) ∈
      (l.foldl (fun acc x => addSeen acc x s) a).results := by
  induction l generalizing a with
  | nil => intro m hm; cases hm
  | cons m0 l ih =>
    have hns : ¬ a.seen.contains m0.id = true := by
      simpa using hl m0 (List.mem_cons_self _ _)
    have hstep : (addSeen a m0 s).results = a.results ++ [{ memory := m0, score := s }] ∧
        (addSeen a m0 s).seen = a.seen ++ [m0.id] := by
      rw [addSeen, if_neg hns]
      exact ⟨rfl, rfl⟩
    intro m hm
    rw [List.foldl_cons]
    rcases List.mem_cons.mp hm with hm | hm
    · obtain ⟨t, ht⟩ := foldl_addSeen_extend l s (addSeen a m0 s)
      rw [ht, hstep.1, hm]
      simp
    · apply ih (addSeen a m0 s) ?_ (by simpa using hnodup.of_cons) m hm
      intro x hx
      rw [hstep.2]
      simp only [List.mem_append, List.mem_singleton]
      rintro (h | h)
      · exact hl x (List.mem_cons_of_mem _ hx) h
      · simp only [List.map_cons] at hnodup
        exact (List.nodup_cons.mp hnodup).1 (List.mem_map.mpr ⟨x, hx, h⟩)

/-- A visible summary row for tenant u1. -/
def sumRowU1 : Memory :=
  { id := "s1", userId := "u1", content := "User wants to build a CLI tool",
    status := StatusActive, kind := KindSummary, createdAt := 2,
    updatedAt := 2, lastAccessedAt := 2 }

/-- A visible conversation row for tenant u1. -/
def convRowU1 : Memory :=
  { id := "c1", userId := "u1", content := "Hello, what time is it?",
    status := StatusActive, kind := KindConversation, createdAt := 1,
    updatedAt := 1, lastAccessedAt := 1 }

/-- C7 counterexample: a zero-token query against a tenant that has a summary
does NOT fall back: the summary tier applies no keyword restriction, returns
the summary at 0.95, and the eligible conversation is not returned at 0.7 —
refuting the claim that a zero-token query always yields zero summary hits
followed by the conversation fallback. -/
theorem c7_counterexample :
    (SearchMemory [sumRowU1, convRowU1] [] (fun _ => 0) "u1" "" 5 "" 9).1 =
      [{ memory := sumRowU1, score := scoreSummary }] ∧
    convRow "u1" convRowU1 = true := by
  decide

/-- Access counts after a fold of bumps: unchanged unless the row's id is one
of the bumped ids. -/
theorem foldl_bump_acc (now : Time) :
    ∀ (l : List Memory) (st : Store),
    ∀ row ∈ l.foldl (fun s x => UpdateAccessCount s x.id now) st,
      ∃ r0 ∈ st, row.id = r0.id ∧
        (row.accessCount = r0.accessCount ∨ ∃ m ∈ l, m.id = row.id) := by
  intro l
  induction l with
  | nil => exact fun st row hrow => ⟨row, hrow, rfl, Or.inl rfl⟩
  | cons m l ih =>
    intro st row hrow
    rw [List.foldl_cons] at hrow
    obtain ⟨r1, hr1, hid1, hacc1⟩ := ih (UpdateAccessCount st m.id now) row hrow
    obtain ⟨r0, hr0, hid0, hacc0, _⟩ := updateAccessCount_row st m.id now r1 hr1
    refine ⟨r0, hr0, hid1.trans hid0, ?_⟩
    rcases hacc1 with hacc1 | ⟨m', hm', hmid⟩
    · rcases hacc0 with hacc0 | hbumped
      · exact Or.inl (hacc1.trans hacc0)
      · exact Or.inr ⟨m, List.mem_cons_self _ _, by rw [← hbumped, ← hid1]⟩
    · exact Or.inr ⟨m', List.mem_cons_of_mem _ hm', hmid⟩

/-- Access counts after the tier-3 fold: unchanged unless the row's id is one
of the hydrated (folded) ids. -/
theorem foldl_vectorStep_store (now : Time) (scores : List (String × Rat)) :
    ∀ (l : List Memory) (p : SearchAcc × Store),
    ∀ row ∈ (l.foldl (vectorStep now scores) p).2,
      ∃ r0 ∈ p.2, row.id = r0.id ∧
        (row.accessCount = r0.accessCount ∨ ∃ m ∈ l, m.id = row.id) := by
  intro l
  induction l with
  | nil => exact fun p row hrow => ⟨row, hrow, rfl, Or.inl rfl⟩
  | cons m l ih =>
    intro p row hrow
    rw [List.foldl_cons] at hrow
    obtain ⟨r1, hr1, hid1, hacc1⟩ := ih (vectorStep now scores p m) row hrow
    by_cases hk : (m.kind != KindPreference && m.kind != KindSummary) = true
    · rw [vectorStep, if_pos hk] at hr1
      obtain ⟨r0, hr0, hid0, hacc0, _⟩ := updateAccessCount_row p.2 m.id now r1 hr1
      refine ⟨r0, hr0, hid1.trans hid0, ?_⟩
      rcases hacc1 with hacc1 | ⟨m', hm', hmid⟩
      · rcases hacc0 with hacc0 | hbumped
        · exact Or.inl (hacc1.trans hacc0)
        · exact Or.inr ⟨m, List.mem_cons_self _ _, by rw [← hbumped, ← hid1]⟩
      · exact Or.inr ⟨m', List.mem_cons_of_mem _ hm', hmid⟩
    · rw [vectorStep, if_neg hk] at hr1
      refine ⟨r1, hr1, hid1, ?_⟩
      rcases hacc1 with hacc1 | ⟨m', hm', hmid⟩
      · exact Or.inl hacc1
      · exact Or.inr ⟨m', List.mem_cons_of_mem _ hm', hmid⟩

/-- Unique row ids survive take-of-sort-of-filter. -/
theorem nodup_take_sortBy_filter (le : Memory → Memory → Bool) (p : Memory → Bool)
    (st : Store) (n : Nat) (hnodup : (st.map Memory.id).Nodup) :
    (((sortBy le (st.filter p)).take n).map Memory.id).Nodup := by
  have h1 : ((st.filter p).map Memory.id).Nodup :=
    ((List.filter_sublist st).map Memory.id).nodup hnodup
  have h2 : ((sortBy le (st.filter p)).map Memory.id).Nodup := by
    rw [sortBy]
    exact ((List.perm_insertionSort _ _).map Memory.id).nodup_iff.mpr h1
  exact (((sortBy le (st.filter p)).take_sublist n).map Memory.id).nodup h2

/-- Seen ids are monotone along a fold of addSeen, and every folded row's id
ends up seen. -/
theorem addSeen_fold_seen (s : Rat) (l : List Memory) (a : SearchAcc) :
    (∀ i ∈ a.seen, i ∈ (l.foldl (fun acc x => addSeen acc x s) a).seen) ∧
    (∀ m ∈ l, m.id ∈ (l.foldl (fun acc x => addSeen acc x s) a).seen) := by
  induction l generalizing a with
  | nil => exact ⟨fun i hi => hi, by simp⟩
  | cons m l ih =>
    have hstep : ∀ i, i ∈ a.seen → i ∈ (addSeen a m s).seen := by
      intro i hi
      by_cases h : a.seen.contains m.id = true
      · rw [addSeen, if_pos h]; exact hi
      · rw [addSeen, if_neg h]; simp [hi]
    have hm : m.id ∈ (addSeen a m s).seen := by
      by_cases h : a.seen.contains m.id = true
      · rw [addSeen, if_pos h]; simpa using h
      · rw [addSeen, if_neg h]; simp
    obtain ⟨i1, i2⟩ := ih (addSeen a m s)
    refine ⟨fun i hi => i1 i (hstep i hi), ?_⟩
    intro x hx
    rcases List.mem_cons.mp hx with hx | hx
    · rw [hx]; exact i1 m.id hm
    · exact i2 x hx

/-- C7 (amended): a zero-token query imposes no keyword restriction on the
summary tier; when the tenant additionally has no visible active summaries
(and row ids are unique), the tier comes back empty and the search falls back
to the tenant's up-to-5 most recent conversations, each entering the results
at score 0.7, and the final store leaves those records' access counters
untouched. -/
theorem c7_zero_token_fallback (st : Store) (vs : VStore) (sim : String → Rat)
    (userId query : String) (topK : Int) (sessionId : String) (now : Time)
    (hq : fields query = [])
    (hsum : ∀ m ∈ st, summaryRow userId [] m = false)
    (hnodup : (st.map Memory.id).Nodup) :
    (∀ m ∈ GetRecentConversations st userId 5,
      ({ memory := m, score := scoreFallback } : SearchResult) ∈
        (SearchMemory st vs sim userId query topK sessionId now).1) ∧
    (∀ m ∈ GetRecentConversations st userId 5,
      ∀ row ∈ (SearchMemory st vs sim userId query topK sessionId now).2,
        row.id = m.id → row.accessCount = m.accessCount) := by
  have hkwEq : (if query == "" then [] else fields query) = ([] : List String) := by
    by_cases hq0 : (query == "") = true
    · rw [if_pos hq0]
    · rw [if_neg hq0]; exact hq
  have hpSum : ∀ (m : Memory) (t : Time),
      summaryRow userId [] { m with accessCount := m.accessCount + 1, lastAccessedAt := t } =
        summaryRow userId [] m := fun _ _ => rfl
  have hpConv : ∀ (m : Memory) (t : Time),
      convRow userId { m with accessCount := m.accessCount + 1, lastAccessedAt := t } =
        convRow userId m := fun _ _ => rfl
  have hsp2 : (SearchPreferences st userId 6 now).2 =
      ((sortBy updatedDescLe (st.filter (prefRow userId))).take 6).foldl
        (fun s m => UpdateAccessCount s m.id now) st := rfl
  -- the summary tier finds nothing
  have hall1 : ∀ m ∈ (sortBy updatedDescLe (st.filter (prefRow userId))).take 6,
      ∀ row ∈ st, row.id = m.id → summaryRow userId [] row = false :=
    fun _ _ row hrow _ => hsum row hrow
  have hst1filterSum : ((SearchPreferences st userId 6 now).2.filter
      (summaryRow userId [])) = [] := by
    rw [hsp2, foldl_bump_filter_eq (summaryRow userId []) hpSum now _ st hall1]
    rw [List.filter_eq_nil_iff]
    intro a ha
    simp [hsum a ha]
  have hsums : SearchSummariesByKeyword (SearchPreferences st userId 6 now).2 userId
      [] 3 now = ([], (SearchPreferences st userId 6 now).2) := by
    rw [SearchSummariesByKeyword, hst1filterSum]
    rfl
  have htier : tier12 st userId query now =
      ((GetRecentConversations (SearchPreferences st userId 6 now).2 userId 5).foldl
          (fun a m => addSeen a m scoreFallback)
          ((SearchPreferences st userId 6 now).1.foldl
            (fun a m => addSeen a m scorePref) {}),
        (SearchPreferences st userId 6 now).2) := by
    rw [tier12, hkwEq, hsums]
    simp
  -- the fallback reads the same conversations as the untouched store
  have hall2 : ∀ m ∈ (sortBy updatedDescLe (st.filter (prefRow userId))).take 6,
      ∀ row ∈ st, row.id = m.id → convRow userId row = false := by
    intro m hm row hrow hid
    have hmp := mem_take_sortBy_filter updatedDescLe (prefRow userId) st 6 m hm
    have hrowm : row = m := List.inj_on_of_nodup_map hnodup hrow hmp.1 hid
    have hkind : m.kind = KindPreference := by
      have h2 := hmp.2
      simp only [prefRow, Bool.and_eq_true, beq_iff_eq] at h2
      exact h2.1.1.2
    rw [hrowm]
    simp [convRow, hkind, KindPreference, KindConversation]
  have hconvEq : GetRecentConversations (SearchPreferences st userId 6 now).2 userId 5 =
      GetRecentConversations st userId 5 := by
    rw [GetRecentConversations, GetRecentConversations, hsp2,
      foldl_bump_filter_eq (convRow userId) hpConv now _ st hall2]
  -- facts about fallback rows
  have hfbfacts : ∀ m ∈ GetRecentConversations st userId 5,
      m ∈ st ∧ m.kind = KindConversation := by
    intro m hm
    rw [GetRecentConversations] at hm
    have h := mem_take_sortBy_filter createdDescLe (convRow userId) st 5 m hm
    refine ⟨h.1, ?_⟩
    have h2 := h.2
    simp only [convRow, Bool.and_eq_true, beq_iff_eq] at h2
    exact h2.1.1.2
  have hnotseen : ∀ m ∈ GetRecentConversations st userId 5,
      m.id ∉ ((SearchPreferences st userId 6 now).1.foldl
        (fun a m => addSeen a m scorePref) ({} : SearchAcc)).seen := by
    intro m hm hmem
    rcases addSeen_fold_seen_origin scorePref _ {} m.id hmem with h | ⟨mp, hmp, hmpid⟩
    · exact absurd h (List.not_mem_nil _)
    · have hmpf := mem_take_sortBy_filter updatedDescLe (prefRow userId) st 6 mp hmp
      have hkindp : mp.kind = KindPreference := by
        have h2 := hmpf.2
        simp only [prefRow, Bool.and_eq_true, beq_iff_eq] at h2
        exact h2.1.1.2
      have hmf := hfbfacts m hm
      have heqm : mp = m := List.inj_on_of_nodup_map hnodup hmpf.1 hmf.1 hmpid
      rw [heqm, hmf.2] at hkindp
      exact absurd hkindp (by decide)
  have hfbnodup : ((GetRecentConversations st userId 5).map Memory.id).Nodup := by
    rw [GetRecentConversations]
    exact nodup_take_sortBy_filter createdDescLe (convRow userId) st 5 hnodup
  constructor
  · intro m hm
    have hadds := addSeen_fold_adds scoreFallback (GetRecentConversations st userId 5)
      ((SearchPreferences st userId 6 now).1.foldl (fun a m => addSeen a m scorePref) {})
      hnotseen hfbnodup m hm
    obtain ⟨t, ht⟩ := searchMemory_extends_tier12 st vs sim userId query topK sessionId now
    rw [ht, htier, hconvEq]
    exact List.mem_append_left _ hadds
  · intro m hm row hrow hid
    rw [SearchMemory, tier3] at hrow
    obtain ⟨r1, hr1, hid1, hacc1⟩ := foldl_vectorStep_store now _ _ _ row hrow
    rcases hacc1 with hacc1 | ⟨vm, hvm, hvmid⟩
    · -- the tier-3 fold did not bump this row; trace back through tier-1 bumps
      rw [htier, hsp2] at hr1
      obtain ⟨r0, hr0, hid0, hacc0⟩ := foldl_bump_acc now _ st r1 hr1
      rcases hacc0 with hacc0 | ⟨mp, hmp, hmpid⟩
      · have hr0m : r0 = m := by
          apply List.inj_on_of_nodup_map hnodup hr0 (hfbfacts m hm).1
          rw [← hid0, ← hid1, hid]
        rw [hacc1, hacc0, hr0m]
      · -- a preference shares the conversation's id: impossible
        exfalso
        have hmpf := mem_take_sortBy_filter updatedDescLe (prefRow userId) st 6 mp hmp
        have hkindp : mp.kind = KindPreference := by
          have h2 := hmpf.2
          simp only [prefRow, Bool.and_eq_true, beq_iff_eq] at h2
          exact h2.1.1.2
        have heqm : mp = m :=
          List.inj_on_of_nodup_map hnodup hmpf.1 (hfbfacts m hm).1
            (by rw [hmpid, ← hid1, hid])
        rw [heqm, (hfbfacts m hm).2] at hkindp
        exact absurd hkindp (by decide)
    · -- a hydrated row shares the fallback row's id: its id was filtered as
      -- unseen, yet the fallback marked it seen
      exfalso
      obtain ⟨_, hvmid2⟩ := mem_GetByIDs hvm
      obtain ⟨x, hx, hxid⟩ := List.mem_map.mp hvmid2
      have hxcond := List.of_mem_filter hx
      have hseen : m.id ∈ (tier12 st userId query now).1.seen := by
        rw [htier, hconvEq]
        exact (addSeen_fold_seen scoreFallback
          (GetRecentConversations st userId 5) _).2 m hm
      have hx1 : x.1 = m.id := by
        rw [hxid, hvmid]
        exact hid
      have hncontains : ¬ m.id ∈ (tier12 st userId query now).1.seen := by
        have hb := hxcond
        rw [hx1] at hb
        simpa using hb
      exact hncontains hseen

/-- C7 witness: the amended statement applied to a tenant with one
conversation and no summaries, under the empty query. -/
theorem c7_zero_token_fallback_witness :
    ({ memory := convRowU1, score := scoreFallback } : SearchResult) ∈
      (SearchMemory [convRowU1] [] (fun _ => 0) "u1" "" 5 "" 9).1 :=
  (c7_zero_token_fallback [convRowU1] [] (fun _ => 0) "u1" "" 5 "" 9
    (by decide) (by decide) (by decide)).1 convRowU1 (by decide)

/-! ### C5: partial-cache-hit diffing -/

/-- Specification of the fill-back pass: the output aligns with the lookups,
cached positions keep their cache entry, missing positions carry the
recomputing provider, and the missing positions consume exactly the computed
vectors in order. -/
theorem fillResults_spec :
    ∀ (lookups : List (String × Option (Vec × String))) (vecs : List Vec)
      (p : String) (out : List (Vec × String)),
    fillResults lookups vecs p = some out →
    out.length = lookups.length ∧
    (∀ pr ∈ lookups.zip out,
      (∀ c, pr.1.2 = some c → pr.2 = c) ∧ (pr.1.2 = none → pr.2.2 = p)) ∧
    (lookups.zip out).filterMap
      (fun pr => if pr.1.2.isNone then some pr.2.1 else none) = vecs := by
  intro lookups
  induction lookups with
  | nil =>
    intro vecs p out h
    cases vecs with
    | nil =>
      simp only [fillResults, Option.some.injEq] at h
      subst h
      exact ⟨rfl, by simp, by simp⟩
    | cons v vs => simp [fillResults] at h
  | cons tc rest ih =>
    intro vecs p out h
    obtain ⟨t, oc⟩ := tc
    cases oc with
    | some c =>
      simp only [fillResults] at h
      obtain ⟨out', hfill, rfl⟩ := Option.map_eq_some'.mp h
      obtain ⟨ihl, ihz, ihf⟩ := ih vecs p out' hfill
      refine ⟨by simp [ihl], ?_, ?_⟩
      · intro pr hpr
        rcases List.mem_cons.mp hpr with hpr | hpr
        · subst hpr
          refine ⟨?_, ?_⟩
          · intro c' hc'
            exact Option.some.inj hc'
          · intro hcontra
            exact Option.noConfusion hcontra
        · exact ihz pr hpr
      · simp only [List.zip_cons_cons, List.filterMap_cons, Option.isNone_some,
          Bool.false_eq_true, if_false]
        exact ihf
    | none =>
      cases vecs with
      | nil => simp [fillResults] at h
      | cons v vs =>
        simp only [fillResults] at h
        obtain ⟨out', hfill, rfl⟩ := Option.map_eq_some'.mp h
        obtain ⟨ihl, ihz, ihf⟩ := ih vs p out' hfill
        refine ⟨by simp [ihl], ?_, ?_⟩
        · intro pr hpr
          rcases List.mem_cons.mp hpr with hpr | hpr
          · subst hpr
            refine ⟨?_, ?_⟩
            · intro c' hc'
              exact Option.noConfusion hc'
            · intro _
              rfl
          · exact ihz pr hpr
        · simp only [List.zip_cons_cons, List.filterMap_cons, Option.isNone_none,
            if_pos, List.cons.injEq]
          exact ⟨trivial, ihf⟩

/-- The fill-back pass succeeds whenever the computed vectors match the
number of cache misses. -/
theorem fillResults_isSome :
    ∀ (lookups : List (String × Option (Vec × String))) (vecs : List Vec) (p : String),
    vecs.length = (missingOf lookups).length →
    ∃ out, fillResults lookups vecs p = some out := by
  intro lookups
  induction lookups with
  | nil =>
    intro vecs p hlen
    simp only [missingOf, List.filterMap_nil, List.length_nil,
      List.length_eq_zero] at hlen
    subst hlen
    exact ⟨[], rfl⟩
  | cons tc rest ih =>
    intro vecs p hlen
    obtain ⟨t, oc⟩ := tc
    cases oc with
    | some c =>
      simp only [missingOf, List.filterMap_cons, Option.isNone_some,
        Bool.false_eq_true, if_false] at hlen
      obtain ⟨out', hout'⟩ := ih vecs p (by simpa [missingOf] using hlen)
      exact ⟨c :: out', by simp [fillResults, hout']⟩
    | none =>
      simp only [missingOf, List.filterMap_cons, Option.isNone_none, if_pos,
        List.length_cons] at hlen
      cases vecs with
      | nil => simp at hlen
      | cons v vs =>
        obtain ⟨out', hout'⟩ := ih vs p (by simpa [missingOf] using Nat.succ_injective hlen)
        exact ⟨(v, p) :: out', by simp [fillResults, hout']⟩

/-- With no cache misses, the fill-back with no computed vectors returns
exactly the cached entries in order. -/
theorem fillResults_all_cached :
    ∀ (lookups : List (String × Option (Vec × String))) (p : String),
    missingOf lookups = [] →
    fillResults lookups [] p = some (lookups.filterMap (fun tc => tc.2)) := by
  intro lookups
  induction lookups with
  | nil => intro p _; rfl
  | cons tc rest ih =>
    intro p hm
    obtain ⟨t, oc⟩ := tc
    cases oc with
    | some c =>
      simp only [missingOf, List.filterMap_cons, Option.isNone_some,
        Bool.false_eq_true, if_false] at hm
      simp [fillResults, ih p (by simpa [missingOf] using hm)]
    | none =>
      simp [missingOf, List.filterMap_cons] at hm


/-- Misses and hits partition the batch. -/
theorem missingOf_length (hash : String → String) (cache : Cache) :
    ∀ texts : List String,
    (missingOf (cacheLookups hash cache texts)).length +
      texts.countP (fun t => (GetCachedEmbedding cache (hash t)).isSome) =
      texts.length := by
  intro texts
  induction texts with
  | nil => rfl
  | cons t ts ih =>
    simp only [cacheLookups, List.map_cons, missingOf, List.filterMap_cons,
      List.countP_cons]
    simp [cacheLookups, missingOf] at ih
    rcases hgc : GetCachedEmbedding cache (hash t) with _ | x
    · simp [hgc]
      omega
    · simp [hgc]
      omega

/-- C5: partial-hit diffing of GetEmbeddingBatch.  Exactly the cache-missing
texts are sent to the provider chain (so n − k texts when k of n are cached,
and none at all when every text is cached); on a successful chain call the
per-text output aligns with the input order, cached positions report the
vector and provider stored in their cache entry, recomputed positions report
the uniform recomputing provider, and the recomputed positions consume the
chain's vectors in order. -/
theorem c5_partial_hit_diffing (env : ManagerEnv) (strategy : String)
    (hash : String → String) (cache : Cache) (texts : List String)
    (vecs : List Vec) (provider : String)
    (hchain : tryChainBatch env (missingOf (cacheLookups hash cache texts))
      (chainForStrategy strategy) = some (vecs, provider))
    (hlen : vecs.length = (missingOf (cacheLookups hash cache texts)).length) :
    (GetEmbeddingBatch env strategy hash cache texts).sent =
      missingOf (cacheLookups hash cache texts) ∧
    (GetEmbeddingBatch env strategy hash cache texts).sent.length +
      texts.countP (fun t => (GetCachedEmbedding cache (hash t)).isSome) =
      texts.length ∧
    ∃ out, (GetEmbeddingBatch env strategy hash cache texts).result = .ok out ∧
      out.length = texts.length ∧
      (∀ pr ∈ (cacheLookups hash cache texts).zip out,
        (∀ c, pr.1.2 = some c → pr.2 = c) ∧ (pr.1.2 = none → pr.2.2 = provider)) ∧
      ((cacheLookups hash cache texts).zip out).filterMap
        (fun pr => if pr.1.2.isNone then some pr.2.1 else none) = vecs := by
  by_cases hmiss : (missingOf (cacheLookups hash cache texts)).isEmpty = true
  · have hnil : missingOf (cacheLookups hash cache texts) = [] := by
      simpa using hmiss
    have hvecs : vecs = [] := by
      rw [hnil] at hlen
      exact List.length_eq_zero.mp hlen
    have hfill := fillResults_all_cached (cacheLookups hash cache texts) provider hnil
    obtain ⟨hl1, hl2, hl3⟩ := fillResults_spec _ [] provider _ hfill
    have hsent : (GetEmbeddingBatch env strategy hash cache texts).sent = [] := by
      rw [GetEmbeddingBatch, if_pos hmiss]
    refine ⟨by rw [hsent, hnil], ?_,
      (cacheLookups hash cache texts).filterMap (fun tc => tc.2), ?_, ?_, hl2, ?_⟩
    · have hcnt := missingOf_length hash cache texts
      rw [hnil] at hcnt
      rw [hsent]
      simpa using hcnt
    · rw [GetEmbeddingBatch, if_pos hmiss]
    · rw [hl1, cacheLookups, List.length_map]
    · rw [hvecs]
      exact hl3
  · obtain ⟨out, hfill⟩ := fillResults_isSome (cacheLookups hash cache texts)
      vecs provider hlen
    have hlenb : (vecs.length != (missingOf (cacheLookups hash cache texts)).length) =
        false := by
      simp [hlen]
    obtain ⟨hl1, hl2, hl3⟩ := fillResults_spec _ vecs provider out hfill
    have hres : (GetEmbeddingBatch env strategy hash cache texts).result = .ok out := by
      rw [GetEmbeddingBatch, if_neg hmiss, hchain]
      simp only [hlenb, Bool.false_eq_true, if_false]
      rw [hfill]
    have hsent : (GetEmbeddingBatch env strategy hash cache texts).sent =
        missingOf (cacheLookups hash cache texts) := by
      rw [GetEmbeddingBatch, if_neg hmiss, hchain]
      simp only [hlenb, Bool.false_eq_true, if_false]
      rw [hfill]
    refine ⟨hsent, ?_, out, hres, ?_, hl2, hl3⟩
    · rw [hsent]
      exact missingOf_length hash cache texts
    · rw [hl1, cacheLookups, List.length_map]

/-- An environment whose primary cloud serves every batch. -/
def cloudOkEnv : ManagerEnv :=
  { cloudflareConfigured := true,
    embedBatch := fun p texts =>
      match p with
      | .cloudflare => some (texts.map (fun _ => ([2] : Vec)))
      | _ => none }

/-- A cache holding an entry for the text "a". -/
def abCache : Cache := [("a", ([1], "cached-provider"))]

/-- C5 witness: the diffing theorem applied to a two-text batch with one
cached text. -/
theorem c5_partial_hit_diffing_witness :
    (GetEmbeddingBatch cloudOkEnv "cloud_first" (fun s => s) abCache ["a", "b"]).sent =
      missingOf (cacheLookups (fun s => s) abCache ["a", "b"]) :=
  (c5_partial_hit_diffing cloudOkEnv "cloud_first" (fun s => s) abCache ["a", "b"]
    [[2]] "Cloudflare Workers AI (Tier 1)" (by decide) (by decide)).1

end ClawMem
